import Mathlib

/-!
# dir-tree: ignore-aware directory tree printer

A shallow embedding of `src/main.go` (`isIgnored`, `parseGitIgnore`,
`buildIgnorePatternsMap`, `printTree`) together with the Go standard-library
functions it calls on a Unix system (`filepath.Clean/Dir/Base/Join/Match/Walk`,
`strings.TrimSpace/HasPrefix/Replace/Split/Repeat`).

Go strings are modelled as lists of characters (`Str`); every function that
inspects a string only tests for ASCII characters (`/`, `.`, `*`, ...), so the
character view and the byte view agree on them.
-/

namespace DirTree

/-- A Go string. -/
abbrev Str := List Char

/-! ## `path/filepath` (Unix) -/

/-- Go `os.IsPathSeparator` on Unix. -/
def isSep (c : Char) : Bool := c == '/'

/-- The inner loop of the `..` case of `filepath.Clean`, on the reversed output
buffer: `for out.w > dotdot && !os.IsPathSeparator(out.index(out.w)) { out.w-- }`.
`last` is `out.index(out.w)`, the byte dropped by the preceding `out.w--`, and
the list is the reversed `out[0:w]`. -/
def backtrackLoop (dotdot : Nat) (last : Char) : Str → Str
  | [] => []
  | c :: r =>
    if (c :: r).length > dotdot && !isSep last then backtrackLoop dotdot c r
    else c :: r

/-- The `out.w--` followed by `backtrackLoop`, on the reversed buffer. -/
def backtrack (dotdot : Nat) : Str → Str
  | [] => []
  | c :: r => backtrackLoop dotdot c r

/-- The test `r == n || os.IsPathSeparator(path[r])` of `filepath.Clean`, on
`path[r:]`: the current path element ends here. -/
def atElemEnd : Str → Bool
  | [] => true
  | c :: _ => isSep c

/-- The main loop `for r < n` of `filepath.Clean`. `rest` is `path[r:]`, `rout`
is the reversed output buffer `out[0:w]`, `dotdot` is the index where `..` must
stop. Every iteration consumes at least one byte of `rest`, so `fuel = len(rest)`
iterations are always enough. -/
def cleanLoop (rooted : Bool) : Nat → Str → Str → Nat → Str
  | 0, _, rout, _ => rout
  | _ + 1, [], rout, _ => rout
  | fuel + 1, c :: rest, rout, dotdot =>
    if isSep c then
      -- empty path element
      cleanLoop rooted fuel rest rout dotdot
    else if c == '.' && atElemEnd rest then
      -- . element
      cleanLoop rooted fuel rest rout dotdot
    else if c == '.' && rest.head? == some '.' && atElemEnd rest.tail then
      -- .. element: remove to last separator
      if rout.length > dotdot then
        -- can backtrack
        cleanLoop rooted fuel rest.tail (backtrack dotdot rout) dotdot
      else if !rooted then
        -- cannot backtrack, but not rooted, so append .. element
        let rout1 := if rout.length > 0 then '/' :: rout else rout
        let rout2 := '.' :: '.' :: rout1
        cleanLoop rooted fuel rest.tail rout2 rout2.length
      else
        cleanLoop rooted fuel rest.tail rout dotdot
    else
      -- real path element: add slash if needed, then copy the element
      let rout1 :=
        if (rooted && rout.length != 1) || (!rooted && rout.length != 0) then '/' :: rout
        else rout
      let elem := (c :: rest).takeWhile (fun x => !isSep x)
      cleanLoop rooted fuel ((c :: rest).dropWhile (fun x => !isSep x))
        (elem.reverse ++ rout1) dotdot

/-- Go `filepath.Clean` on Unix (no volume name). -/
def filepathClean (path : Str) : Str :=
  match path with
  | [] => ['.']
  | c :: _ =>
    let rooted := isSep c
    let rout :=
      if rooted then cleanLoop true path.length path.tail ['/'] 1
      else cleanLoop false path.length path [] 0
    -- Turn empty string into "."
    if rout.isEmpty then ['.'] else rout.reverse

/-- The prefix `path[0 : i+1]` that `filepath.Dir` cleans, where `i` is the index
of the last separator (`-1` when there is none), computed on the reversed path. -/
def dirPrefix (path : Str) : Str :=
  (path.reverse.dropWhile (fun x => !isSep x)).reverse

/-- Go `filepath.Dir` on Unix. -/
def filepathDir (path : Str) : Str :=
  filepathClean (dirPrefix path)

/-- Go `filepath.Base` on Unix. -/
def filepathBase (path : Str) : Str :=
  if path.isEmpty then ['.']
  else
    -- Strip trailing slashes.
    let stripped := (path.reverse.dropWhile isSep)
    -- Find the last element.
    let last := (stripped.takeWhile (fun x => !isSep x)).reverse
    -- If empty now, it had only slashes.
    if last.isEmpty then ['/'] else last

/-- Go `filepath.Join` of two elements on Unix. -/
def filepathJoin (a b : Str) : Str :=
  if !a.isEmpty then filepathClean (a ++ '/' :: b)
  else if !b.isEmpty then filepathClean b
  else []


/-! ## `filepath.Match` (Unix, Go 1.16 and later) -/

/-- The scanning loop of Go `scanChunk` (after the leading stars are dropped):
splits the pattern at the first `*` that is not inside a character class. -/
def scanChunkLoop : Bool → Str → Str × Str
  | _, [] => ([], [])
  | inrange, c :: cs =>
    if c == '\\' then
      match cs with
      | [] => ([c], [])
      | d :: ds => let r := scanChunkLoop inrange ds; (c :: d :: r.1, r.2)
    else if c == '[' then
      let r := scanChunkLoop true cs; (c :: r.1, r.2)
    else if c == ']' then
      let r := scanChunkLoop false cs; (c :: r.1, r.2)
    else if c == '*' then
      if inrange then let r := scanChunkLoop inrange cs; (c :: r.1, r.2)
      else ([], c :: cs)
    else
      let r := scanChunkLoop inrange cs; (c :: r.1, r.2)

/-- Go `scanChunk`: `(star, chunk, rest)`. -/
def scanChunk (pattern : Str) : Bool × Str × Str :=
  let star := pattern.head? == some '*'
  let r := scanChunkLoop false (pattern.dropWhile (fun c => c == '*'))
  (star, r.1, r.2)

/-- Go `getEsc`: a possibly escaped character of a character class and the rest
of the chunk; `none` is `ErrBadPattern`. -/
def getEsc : Str → Option (Char × Str)
  | [] => none
  | c :: cs =>
    if c == '-' || c == ']' then none
    else if c == '\\' then
      match cs with
      | [] => none
      | r :: n => if n.isEmpty then none else some (r, n)
    else if cs.isEmpty then none
    else some (c, cs)

/-- The loop of `matchChunk` that parses all ranges of a character class;
`none` is `ErrBadPattern`, otherwise the `match` flag and the rest of the chunk.
Every iteration consumes a byte of the chunk. -/
def classLoop (r : Char) : Nat → Str → Bool → Nat → Option (Bool × Str)
  | 0, _, _, _ => none
  | fuel + 1, chunk, mtch, nrange =>
    if chunk.head? == some ']' && nrange > 0 then some (mtch, chunk.tail)
    else
      match getEsc chunk with
      | none => none
      | some (lo, chunk1) =>
        if chunk1.head? == some '-' then
          match getEsc chunk1.tail with
          | none => none
          | some (hi, chunk2) =>
            classLoop r fuel chunk2 (mtch || (decide (lo ≤ r) && decide (r ≤ hi))) (nrange + 1)
        else
          classLoop r fuel chunk1 (mtch || (decide (lo ≤ r) && decide (r ≤ lo))) (nrange + 1)

/-- Result of Go `matchChunk`: `bad` is `ErrBadPattern`, `fail` is `ok = false`
without error, `ok rest` is a match leaving `rest` of the name. -/
inductive ChunkResult where
  | bad
  | fail
  | ok (rest : Str)
deriving DecidableEq, Repr

/-- The loop of Go `matchChunk` over the chunk, with the rest `s` of the name and
the `failed` flag. Every iteration consumes a byte of the chunk. -/
def matchChunkLoop : Nat → Str → Str → Bool → ChunkResult
  | 0, _, s, failed => if failed then .fail else .ok s
  | _ + 1, [], s, failed => if failed then .fail else .ok s
  | fuel + 1, c :: chunk, s, failed0 =>
    let failed := failed0 || s.isEmpty
    if c == '[' then
      let r := if failed then Char.ofNat 0 else s.headD (Char.ofNat 0)
      let s1 := if failed then s else s.tail
      let negated := chunk.head? == some '^'
      let chunk1 := if negated then chunk.tail else chunk
      match classLoop r (chunk1.length + 1) chunk1 false 0 with
      | none => .bad
      | some (mtch, chunk2) =>
        matchChunkLoop fuel chunk2 s1 (failed || (mtch == negated))
    else if c == '?' then
      if failed then matchChunkLoop fuel chunk s failed
      else matchChunkLoop fuel chunk s.tail (s.head? == some '/')
    else if c == '\\' then
      match chunk with
      | [] => .bad
      | d :: chunk1 =>
        if failed then matchChunkLoop fuel chunk1 s failed
        else matchChunkLoop fuel chunk1 s.tail (s.head? != some d)
    else
      if failed then matchChunkLoop fuel chunk s failed
      else matchChunkLoop fuel chunk s.tail (s.head? != some c)

/-- Go `matchChunk`. -/
def matchChunk (chunk s : Str) : ChunkResult :=
  matchChunkLoop chunk.length chunk s false

/-- Outcome of the star loop of `filepath.Match`. -/
inductive StarResult where
  | bad
  | exhausted
  | found (rest : Str)
deriving DecidableEq, Repr

/-- The loop `for i := 0; i < len(name) && name[i] != Separator; i++` of
`filepath.Match`, which looks for a match of the chunk skipping `i+1` bytes. -/
def starLoop (chunk : Str) (patEmpty : Bool) : Str → StarResult
  | [] => .exhausted
  | c :: name =>
    if isSep c then .exhausted
    else
      match matchChunk chunk name with
      | .ok t =>
        if patEmpty && !t.isEmpty then starLoop chunk patEmpty name else .found t
      | .bad => .bad
      | .fail => starLoop chunk patEmpty name

/-- The final loop of `filepath.Match`: before returning false with no error it
checks that the remainder of the pattern is syntactically valid. -/
def checkRest : Nat → Str → Option Bool
  | 0, _ => some false
  | fuel + 1, pattern =>
    if pattern.isEmpty then some false
    else
      let sc := scanChunk pattern
      match matchChunk sc.2.1 [] with
      | .bad => none
      | _ => checkRest fuel sc.2.2

/-- The `Pattern:` loop of `filepath.Match`; `none` is `ErrBadPattern`. Every
iteration consumes a byte of the pattern. -/
def matchLoop : Nat → Str → Str → Option Bool
  | 0, _, _ => some false
  | fuel + 1, pattern, name =>
    if pattern.isEmpty then some name.isEmpty
    else
      let sc := scanChunk pattern
      let star := sc.1
      let chunk := sc.2.1
      let rest := sc.2.2
      if star && chunk.isEmpty then
        -- Trailing * matches rest of string unless it has a /.
        some (!name.contains '/')
      else
        match matchChunk chunk name with
        | .bad => none
        | r =>
          let direct : Option Str :=
            match r with
            | .ok t => if t.isEmpty || !rest.isEmpty then some t else none
            | _ => none
          match direct with
          | some t => matchLoop fuel rest t
          | none =>
            if star then
              match starLoop chunk rest.isEmpty name with
              | .found t => matchLoop fuel rest t
              | .bad => none
              | .exhausted => checkRest rest.length rest
            else checkRest rest.length rest

/-- Go `filepath.Match`: `some matched` when `err == nil`, `none` for
`ErrBadPattern`. -/
def filepathMatch (pattern name : Str) : Option Bool :=
  matchLoop (pattern.length + 1) pattern name

/-! ## The program: exclusion check -/

/-- The type `IgnorePatternsMap` (`map[string][]string`): `none` is a key that is
not found. -/
abbrev IgnorePatternsMap := Str → Option (List Str)

/-- The inner loop of `isIgnored` over one pattern set: true as soon as a pattern
matches `base` without a pattern error. -/
def matchesAny (base : Str) : List Str → Bool
  | [] => false
  | pattern :: rest =>
    if filepathMatch pattern base == some true then true else matchesAny base rest

/-- The `for` loop of `isIgnored`, run for at most `fuel` iterations; `none` means
the loop has not returned within `fuel` iterations. -/
def isIgnoredLoop (path : Str) (ignorePatternsMap : IgnorePatternsMap) : Nat → Str → Option Bool
  | 0, _ => none
  | fuel + 1, dir =>
    let hit :=
      match ignorePatternsMap dir with
      | some ignorePatterns => matchesAny (filepathBase path) ignorePatterns
      | none => false
    if hit then some true
    else
      let parentDir := filepathDir dir
      if parentDir = dir then some false
      else isIgnoredLoop path ignorePatternsMap fuel parentDir

/-- The function `isIgnored` of `main.go`, with `len(path) + 2` iterations of its
loop allowed (`isIgnored_some` shows that this is always enough). -/
def isIgnored (path : Str) (ignorePatternsMap : IgnorePatternsMap) : Option Bool :=
  isIgnoredLoop path ignorePatternsMap (path.length + 2) (filepathDir path)


/-! ## `strings` -/

/-- Go `unicode.IsSpace`, the white space that `strings.TrimSpace` removes. -/
def isSpace (c : Char) : Bool :=
  c == '\t' || c == '\n' || c == Char.ofNat 0x0b || c == Char.ofNat 0x0c || c == '\r' ||
  c == ' ' || c == Char.ofNat 0x85 || c == Char.ofNat 0xa0 || c == Char.ofNat 0x1680 ||
  (decide (0x2000 ≤ c.toNat) && decide (c.toNat ≤ 0x200a)) || c == Char.ofNat 0x2028 ||
  c == Char.ofNat 0x2029 || c == Char.ofNat 0x202f || c == Char.ofNat 0x205f ||
  c == Char.ofNat 0x3000

/-- Go `strings.TrimSpace`. -/
def trimSpace (s : Str) : Str :=
  ((s.dropWhile isSpace).reverse.dropWhile isSpace).reverse

/-- Go `strings.HasPrefix`. -/
def hasPrefix (s pre : Str) : Bool := pre.isPrefixOf s

/-- Go `strings.Replace(s, old, "", 1)`: the first occurrence of `old` in `s` is
removed. -/
def removeFirst (old : Str) : Str → Str
  | [] => []
  | c :: s => if old.isPrefixOf (c :: s) then (c :: s).drop old.length else c :: removeFirst old s

/-- Go `strings.Split(s, string(os.PathSeparator))`. -/
def splitSep : Str → List Str
  | [] => [[]]
  | c :: s =>
    if isSep c then [] :: splitSep s
    else
      match splitSep s with
      | [] => [[c]]
      | e :: es => (c :: e) :: es

/-- Go `strings.Repeat`. -/
def repeatStr (s : Str) : Nat → Str
  | 0 => []
  | n + 1 => s ++ repeatStr s n

/-! ## The file system, as the system calls of the program observe it -/

/-- An error value returned by the operating system. `notExist` is an error for
which `os.IsNotExist` reports true; `text` is what `err.Error()` prints. -/
inductive OsError where
  | notExist
  | other (text : Str)
deriving DecidableEq, Repr

/-- Go `err.Error()`. -/
def OsError.text : OsError → Str
  | .notExist => "no such file or directory".toList
  | .other t => t

/-- What `os.Open` followed by a `bufio.Scanner` over the file yields: `os.Open`
fails, or the scanner stops with a read error (`scanner.Err() != nil`), or the
scanner yields the lines of the file. -/
inductive FileData where
  | openFails (err : OsError)
  | scanFails (text : Str)
  | lines (ls : List Str)
deriving Repr

/-- An entry of the file system. A directory lists its entries as
`readDirNames` returns them (sorted by name), unless listing it fails;
`noStat` is an entry on which `os.Lstat` fails. -/
inductive FsNode where
  | file (data : FileData)
  | dir (listErr : Option OsError) (entries : List (Str × FsNode))
  | noStat (err : OsError)

/-- Go `info.IsDir()`. -/
def FsNode.isDir : FsNode → Bool
  | .dir _ _ => true
  | _ => false

/-- The entry called `name` of a directory listing. -/
def lookupEntry (name : Str) : List (Str × FsNode) → Option FsNode
  | [] => none
  | (n, node) :: rest => if n = name then some node else lookupEntry name rest

/-- What opening and scanning the entry `name` of a directory yields: a missing
entry does not exist, a directory opens but cannot be read as a file, and an entry
that cannot be statted cannot be opened either. -/
def osOpen (entries : List (Str × FsNode)) (name : Str) : FileData :=
  match lookupEntry name entries with
  | none => .openFails .notExist
  | some (.file data) => data
  | some (.dir _ _) => .scanFails "is a directory".toList
  | some (.noStat err) => .openFails err

/-! ## `filepath.Walk` -/

/-- Go `filepath.WalkFunc`, with the state the closure captures passed explicitly:
the callback gets the path, the entry (`info`) and the error of `Lstat` or of
listing the directory, and returns the new state and its own error. -/
abbrev WalkFunc (σ : Type) := Str → FsNode → Option OsError → σ → σ × Option OsError

mutual
/-- Go `filepath.walk`, together with the `Lstat` of the entry that precedes every
call of it. The callbacks of this program never return `filepath.SkipDir`, so every
error ends the walk. -/
def walk {σ : Type} (walkFn : WalkFunc σ) (path : Str) (info : FsNode) (s : σ) :
    σ × Option OsError :=
  match info with
  | .noStat err => walkFn path (.noStat err) (some err) s
  | .file data => walkFn path (.file data) none s
  | .dir listErr entries =>
    let r := walkFn path (.dir listErr entries) listErr s
    if listErr.isSome || r.2.isSome then r
    else walkNames walkFn path entries r.1
/-- The loop `for _, name := range names` of Go `filepath.walk`. -/
def walkNames {σ : Type} (walkFn : WalkFunc σ) (path : Str) (entries : List (Str × FsNode))
    (s : σ) : σ × Option OsError :=
  match entries with
  | [] => (s, none)
  | (name, node) :: rest =>
    let r := walk walkFn (filepathJoin path name) node s
    if r.2.isSome then r
    else walkNames walkFn path rest r.1
end

/-- Go `filepath.Walk`. -/
def filepathWalk {σ : Type} (walkFn : WalkFunc σ) (root : Str) (info : FsNode) (s : σ) :
    σ × Option OsError :=
  walk walkFn root info s

/-! ## The program: pattern files and the index -/

/-- The constant `gitignore`. -/
def gitignore : Str := ".gitignore".toList

/-- The scanning loop of `parseGitIgnore` over the lines that remain, `acc` being
`ignorePatterns` so far. -/
def scanPatterns (ignorePatterns : List Str) : List Str → List Str
  | [] => ignorePatterns
  | text :: rest =>
    let pattern := trimSpace text
    if pattern != [] && !hasPrefix pattern ['#'] then
      scanPatterns (ignorePatterns ++ [pattern]) rest
    else scanPatterns ignorePatterns rest

/-- The function `parseGitIgnore` of `main.go`, on what opening and scanning
`gitignorePath` yields. -/
def parseGitIgnore (file : FileData) : Except OsError (List Str) :=
  match file with
  | .openFails err =>
    match err with
    | .notExist => .ok []
    | _ => .error err
  | .scanFails text => .error (.other text)
  | .lines ls => .ok (scanPatterns [] ls)

/-- The assignment `ignorePatternsMap[path] = ignorePatterns`. -/
def mapInsert (m : IgnorePatternsMap) (path : Str) (ignorePatterns : List Str) :
    IgnorePatternsMap :=
  fun k => if k = path then some ignorePatterns else m k

/-- The closure that `buildIgnorePatternsMap` passes to `filepath.Walk`. -/
def buildWalkFn : WalkFunc IgnorePatternsMap := fun path info err ignorePatternsMap =>
  match err with
  | some e => (ignorePatternsMap, some e)
  | none =>
    match info with
    | .dir _ entries =>
      match parseGitIgnore (osOpen entries gitignore) with
      | .error e => (ignorePatternsMap, some e)
      | .ok ignorePatterns => (mapInsert ignorePatternsMap path ignorePatterns, none)
    | _ => (ignorePatternsMap, none)

/-- The function `buildIgnorePatternsMap` of `main.go`, on the tree `root` found at
`rootPath`. -/
def buildIgnorePatternsMap (rootPath : Str) (root : FsNode) :
    IgnorePatternsMap × Option OsError :=
  filepathWalk buildWalkFn rootPath root (fun _ => none)

/-! ## The program: rendering -/

/-- The line `printTree` prints for the entry at `subpath`; `info.Name()` is the
base name of the path that was statted. -/
def entryLine (path subpath : Str) : Str :=
  let relativePath := removeFirst path subpath
  let elements := splitSep relativePath
  let indentation := repeatStr "   ".toList (elements.length - 1)
  indentation ++ "├──".toList ++ filepathBase subpath

/-- The closure that `printTree` passes to `filepath.Walk`; the state is the list
of lines printed so far. -/
def printWalkFn (path : Str) (ignorePatternsMap : IgnorePatternsMap) : WalkFunc (List Str) :=
  fun subpath _ err out =>
    match err with
    | some e => (out, some e)
    | none =>
      if subpath != path && isIgnored subpath ignorePatternsMap == some false then
        (out ++ [entryLine path subpath], none)
      else (out, none)

/-- The function `printTree` of `main.go`, on the tree `root` found at `path`: the
lines written to standard output. The error that `filepath.Walk` returns is
dropped, as in the source. -/
def printTree (path : Str) (root : FsNode) (ignorePatternsMap : IgnorePatternsMap) : List Str :=
  match root with
  | .noStat err => [err.text]
  | _ =>
    match isIgnored path ignorePatternsMap with
    | some false =>
      (filepathWalk (printWalkFn path ignorePatternsMap) path root [filepathBase path]).1
    | _ => []

/-- The tree of the scenario: `a.txt`, `b.log`, a `.gitignore` holding `*.log`, and
`sub/` holding `c.log` and an empty `.gitignore`. -/
def scenarioTree : FsNode :=
  .dir none [
    (".gitignore".toList, .file (.lines ["*.log".toList])),
    ("a.txt".toList, .file (.lines [])),
    ("b.log".toList, .file (.lines [])),
    ("sub".toList, .dir none [
      (".gitignore".toList, .file (.lines [])),
      ("c.log".toList, .file (.lines []))])]

/-! ## Predicates used in the proofs -/

/-- The output buffer is in its initial state: `out.w == 1` when rooted,
`out.w == 0` otherwise. -/
def fresh (rooted : Bool) (rout : Str) : Prop :=
  (rooted = true ∧ rout.length = 1) ∨ (rooted = false ∧ rout.length = 0)

/-- No trailing separator: the (reversed) buffer does not end in a separator,
unless it is the single leading slash of a rooted path. -/
def noTrail (rooted : Bool) (rout : Str) : Prop :=
  ∀ c t, rout = c :: t → isSep c = true → rooted = true ∧ t = []

/-- No two adjacent separators. -/
def noAdj (rout : Str) : Prop :=
  List.Chain' (fun a b => ¬ (isSep a = true ∧ isSep b = true)) rout

/-- The part `out[0:dotdot]` of the reversed buffer. -/
def bottom (dotdot : Nat) (rout : Str) : Str := rout.drop (rout.length - dotdot)

/-- The invariant of the output buffer of `filepath.Clean`. -/
structure BufInv (rooted : Bool) (rout : Str) (dotdot : Nat) : Prop where
  le : dotdot ≤ rout.length
  adj : noAdj rout
  bot : noTrail rooted (bottom dotdot rout)
  top : noTrail rooted rout

/-- What `filepath.Clean` returns: a non-empty path that does not end in a
separator unless it is the root `/`. -/
def CleanOut (d : Str) : Prop :=
  d = ['/'] ∨ ∃ c t, d.reverse = c :: t ∧ isSep c = false

/-- The number of iterations the loop of `isIgnored` needs at most from `d`. -/
def climb (d : Str) : Nat := if d = ['.'] then 1 else d.length + 1

/-- The test the loop of `isIgnored` makes at directory `dir`. -/
def hitAt (path : Str) (m : IgnorePatternsMap) (dir : Str) : Bool :=
  match m dir with
  | some ignorePatterns => matchesAny (filepathBase path) ignorePatterns
  | none => false

/-! ## The pre-order walk, as a list -/

/-- One call of the walk callback: the path, the entry and the error with which
`filepath.Walk` reports the entry (`none` when it was statted and listed). -/
structure Visit where
  path : Str
  info : FsNode
  err : Option OsError

mutual
/-- Every entry of the tree `info` found at `path`, in pre-order, each with the
error the walk reports for it. A directory that cannot be listed has no entries
below it. -/
def visits (path : Str) (info : FsNode) : List Visit :=
  match info with
  | .noStat err => [⟨path, .noStat err, some err⟩]
  | .file data => [⟨path, .file data, none⟩]
  | .dir listErr entries =>
    ⟨path, .dir listErr entries, listErr⟩ ::
      (if listErr.isSome then [] else visitsNames path entries)
/-- The entries below the directory at `path`, in pre-order. -/
def visitsNames (path : Str) (entries : List (Str × FsNode)) : List Visit :=
  match entries with
  | [] => []
  | (name, node) :: rest => visits (filepathJoin path name) node ++ visitsNames path rest
end

/-- A callback run over a list of visits, until it returns an error. -/
def runVisits {σ : Type} (walkFn : WalkFunc σ) : List Visit → σ → σ × Option OsError
  | [], s => (s, none)
  | v :: vs, s =>
    let r := walkFn v.path v.info v.err s
    if r.2.isSome then r else runVisits walkFn vs r.1

/-- The failure of reading a pattern file, if any: an error of `os.Open` other than
"file does not exist", or a read error of the scanner. -/
def readFailure (file : FileData) : Option OsError :=
  match file with
  | .openFails .notExist => none
  | .openFails err => some err
  | .scanFails text => some (.other text)
  | .lines _ => none

/-- The failure the index build meets at a visit, if any: statting or listing the
entry fails, or the entry is a directory whose pattern file cannot be read. -/
def visitFailure (v : Visit) : Option OsError :=
  match v.err with
  | some e => some e
  | none =>
    match v.info with
    | .dir _ entries => readFailure (osOpen entries gitignore)
    | _ => none

/-- The pattern set of a directory: the parsed lines of its pattern file, empty
when it has none. -/
def patternSet (entries : List (Str × FsNode)) : List Str :=
  match osOpen entries gitignore with
  | .lines ls => scanPatterns [] ls
  | _ => []

/-- The pattern set a visit of a directory records, `none` for other entries. -/
def visitPatterns (v : Visit) : Option (List Str) :=
  match v.info with
  | .dir _ entries => some (patternSet entries)
  | _ => none

/-- The visits before the first one for which `bad` holds. -/
def before (bad : Visit → Bool) (vs : List Visit) : List Visit :=
  vs.takeWhile (fun v => !bad v)

/-- The effect on the index of a visit that meets no failure: a directory is
recorded with its pattern set, any other entry leaves the index as it is. -/
def recordVisit (m : IgnorePatternsMap) (v : Visit) : IgnorePatternsMap :=
  match visitPatterns v with
  | some ps => mapInsert m v.path ps
  | none => m

/-- The index build fails at this visit. -/
def buildFails (v : Visit) : Bool := (visitFailure v).isSome

/-- The walk reports an error for this visit. -/
def walkFails (v : Visit) : Bool := v.err.isSome

/-- The entry of a visit gets a line in the tree: it is not the root path and the
exclusion check returns false for it. -/
def isPrinted (path : Str) (m : IgnorePatternsMap) (v : Visit) : Bool :=
  v.path != path && isIgnored v.path m == some false

/-- The paths of the directories among the visits. -/
def dirPaths (vs : List Visit) : List Str :=
  (vs.filter (fun v => v.info.isDir)).map (fun v => v.path)

/-! ## Absolute clean paths -/

/-- An ordinary file name: not empty, without separator, and neither `.` nor `..`. -/
def normalName (e : Str) : Bool :=
  !e.isEmpty && e.all (fun c => !isSep c) && e != ['.'] && e != ['.', '.']

/-- The names `e1, ..., ek` as `/e1/.../ek`. -/
def relJoin : List Str → Str
  | [] => []
  | e :: es => '/' :: e ++ relJoin es

/-- The absolute clean path with the elements `es`: `/` when there are none,
`/e1/.../ek` otherwise (what `os.Getwd` returns). -/
def absPath (es : List Str) : Str :=
  if es.isEmpty then ['/'] else relJoin es

/-! ## Parsing, exclusion and error handling, as the specification words them -/

/-- A trimmed line is kept as a pattern: it is not empty and not a comment. -/
def isPattern (p : Str) : Bool := p != [] && !hasPrefix p ['#']

/-- The index `m` with every pattern removed for which glob matching against
`base` reports a pattern error. -/
def dropBadPatterns (base : Str) (m : IgnorePatternsMap) : IgnorePatternsMap :=
  fun d => (m d).map (fun ps => ps.filter (fun pat => (filepathMatch pat base).isSome))

/-! ## Concrete trees -/

/-- A tree whose directory `build` is excluded by the root pattern file, with a
file `x.txt` inside it. -/
def excludedDirTree : FsNode :=
  .dir none [
    (".gitignore".toList, .file (.lines ["build".toList])),
    ("build".toList, .dir none [("x.txt".toList, .file (.lines []))])]

/-- A tree with a single file `a.txt`. -/
def oneFileTree : FsNode :=
  .dir none [("a.txt".toList, .file (.lines []))]

/-- A tree in which listing the directory `b` fails, between the files `a` and
`c`. -/
def walkErrorTree : FsNode :=
  .dir none [
    ("a".toList, .file (.lines [])),
    ("b".toList, .dir (some (.other "open /r/b: permission denied".toList)) []),
    ("c".toList, .file (.lines []))]

/-- A tree in which the pattern file of the directory `a` cannot be opened; the
directory `b` comes after it. -/
def readErrorTree : FsNode :=
  .dir none [
    ("a".toList, .dir none [
      (".gitignore".toList,
        .file (.openFails (.other "open /r/a/.gitignore: permission denied".toList)))]),
    ("b".toList, .dir none [])]

/-- An index whose pattern set for `/r` holds a malformed pattern followed by a
well-formed one. -/
def malformedIndex : IgnorePatternsMap :=
  fun d => if d = "/r".toList then some ["[".toList, "*.txt".toList] else none

mutual
/-- Every name in the tree is an ordinary file name. -/
def normalTree : FsNode → Bool
  | .dir _ entries => normalEntries entries
  | .file _ => true
  | .noStat _ => true
/-- Every name in the listing, and below it, is an ordinary file name. -/
def normalEntries : List (Str × FsNode) → Bool
  | [] => true
  | (name, node) :: rest => normalName name && normalTree node && normalEntries rest
end

/-! ## The library model on the examples of the Go documentation and tests -/

theorem filepathClean_examples :
    filepathClean "abc//def//ghi".toList = "abc/def/ghi".toList ∧
    filepathClean "abc/def/../ghi/../jkl".toList = "abc/jkl".toList ∧
    filepathClean "abc/def/../../..".toList = "..".toList ∧
    filepathClean "/abc/def/../../..".toList = "/".toList ∧
    filepathClean "abc/../../././../def".toList = "../../def".toList ∧
    filepathClean "".toList = ".".toList ∧
    filepathClean "//abc//".toList = "/abc".toList := by
  decide

theorem filepathDir_examples :
    filepathDir "".toList = ".".toList ∧ filepathDir "/".toList = "/".toList ∧
    filepathDir "/foo".toList = "/".toList ∧ filepathDir "x/".toList = "x".toList ∧
    filepathDir "abc".toList = ".".toList ∧ filepathDir "a/b/c.x".toList = "a/b".toList := by
  decide

theorem filepathBase_examples :
    filepathBase "".toList = ".".toList ∧ filepathBase "/.".toList = ".".toList ∧
    filepathBase "////".toList = "/".toList ∧ filepathBase "x/".toList = "x".toList ∧
    filepathBase "a/b/c.x".toList = "c.x".toList := by
  decide

theorem filepathMatch_examples :
    filepathMatch "*c".toList "abc".toList = some true ∧
    filepathMatch "a*".toList "ab/c".toList = some false ∧
    filepathMatch "a*b?c*x".toList "abxbbxdbxebxczzx".toList = some true ∧
    filepathMatch "ab[^b-d]".toList "abc".toList = some false ∧
    filepathMatch "a\\*b".toList "a*b".toList = some true ∧
    filepathMatch "[\\-x]".toList "-".toList = some true ∧
    filepathMatch "[x-]".toList "z".toList = none ∧
    filepathMatch "[a-b-c]".toList "a".toList = none ∧
    filepathMatch "a[".toList "x".toList = none ∧
    filepathMatch "\\".toList "a".toList = none := by
  decide
/-! ## Properties of `filepath.Clean` -/

theorem backtrackLoop_length_le (dotdot : Nat) : ∀ (r : Str) (last : Char),
    (backtrackLoop dotdot last r).length ≤ r.length := by
  intro r
  induction r with
  | nil => intro last; simp [backtrackLoop]
  | cons c r ih =>
    intro last
    unfold backtrackLoop
    split
    · have := ih c; simp only [List.length_cons]; omega
    · exact Nat.le_refl _

theorem backtrack_length_le (dotdot : Nat) (r : Str) :
    (backtrack dotdot r).length ≤ r.length := by
  cases r with
  | nil => simp [backtrack]
  | cons c r =>
    have := backtrackLoop_length_le dotdot r c
    simp only [backtrack, List.length_cons]; omega

theorem atElemEnd_dropWhile (l : Str) : atElemEnd (l.dropWhile (fun x => !isSep x)) = true := by
  induction l with
  | nil => rfl
  | cons c l ih =>
    simp only [List.dropWhile_cons]
    split
    · exact ih
    · rename_i h; simpa [atElemEnd] using h

theorem length_takeWhile_add_dropWhile (p : Char → Bool) (l : Str) :
    (l.takeWhile p).length + (l.dropWhile p).length = l.length := by
  rw [← List.length_append, List.takeWhile_append_dropWhile]

theorem cleanLoop_length (rooted : Bool) (N : Nat) : ∀ (fuel : Nat) (rest rout : Str) (dotdot : Nat),
    rout.length + rest.length ≤ N →
    (atElemEnd rest = false → ¬ fresh rooted rout → rout.length + rest.length + 1 ≤ N) →
    (cleanLoop rooted fuel rest rout dotdot).length ≤ N := by
  intro fuel
  induction fuel with
  | zero => intro rest rout dotdot h _; simp only [cleanLoop]; omega
  | succ fuel ih =>
    intro rest rout dotdot h1 h2
    cases rest with
    | nil => simp only [cleanLoop]; simpa using h1
    | cons c rest =>
      simp only [cleanLoop]
      simp only [List.length_cons] at h1 h2
      split
      · -- separator
        apply ih
        · omega
        · intro _ _; omega
      · rename_i hc
        have hc' : atElemEnd (c :: rest) = false := by simpa [atElemEnd] using hc
        split
        · -- . element
          rename_i hdot
          simp only [Bool.and_eq_true] at hdot
          apply ih
          · omega
          · intro h; rw [hdot.2] at h; cases h
        · split
          · -- .. element
            rename_i hdd
            simp only [Bool.and_eq_true] at hdd
            obtain ⟨⟨_, hhead⟩, hend⟩ := hdd
            cases rest with
            | nil => simp at hhead
            | cons d rest =>
              simp only [List.tail_cons, List.length_cons] at *
              split
              · apply ih
                · have := backtrack_length_le dotdot rout; omega
                · intro h; rw [hend] at h; cases h
              · split
                · apply ih
                  · rename_i hroot
                    have hnf : ¬ fresh rooted rout ∨ rout.length = 0 := by
                      by_cases h0 : rout.length = 0
                      · exact Or.inr h0
                      · left; intro hf; rcases hf with ⟨hr, _⟩ | ⟨_, hl⟩
                        · simp [hr] at hroot
                        · exact h0 hl
                    rcases hnf with hnf | h0
                    · have := h2 hc' hnf
                      split <;> simp only [List.length_cons] <;> omega
                    · simp only [h0, Nat.lt_irrefl, ↓reduceIte, List.length_cons]; omega
                  · intro h; rw [hend] at h; cases h
                · apply ih
                  · omega
                  · intro h; rw [hend] at h; cases h
          · -- real element
            have hsum := length_takeWhile_add_dropWhile (fun x => !isSep x) (c :: rest)
            simp only [List.length_cons] at hsum
            apply ih
            · simp only [List.length_append, List.length_reverse]
              split
              · rename_i hnf
                have hnf' : ¬ fresh rooted rout := by
                  intro hf; rcases hf with ⟨hr, hl⟩ | ⟨hr, hl⟩ <;> simp [hr, hl] at hnf
                have := h2 hc' hnf'
                simp only [List.length_cons]; omega
              · omega
            · intro h; rw [atElemEnd_dropWhile] at h; cases h

theorem bottom_append (dotdot : Nat) (a r : Str) (h : dotdot ≤ r.length) :
    bottom dotdot (a ++ r) = bottom dotdot r := by
  unfold bottom
  have e : (a ++ r).length - dotdot = a.length + (r.length - dotdot) := by
    simp only [List.length_append]; omega
  rw [e, List.drop_append]

theorem bottom_self (r : Str) : bottom r.length r = r := by
  simp [bottom]

theorem noTrail_nil (rooted : Bool) : noTrail rooted [] := by
  intro c t h; cases h

theorem noTrail_cons_of_not_sep (rooted : Bool) (c : Char) (t : Str) (h : isSep c = false) :
    noTrail rooted (c :: t) := by
  intro c' t' e hs
  cases e
  rw [h] at hs; cases hs

theorem backtrackLoop_spec (rooted : Bool) (dotdot : Nat) : ∀ (r : Str) (last : Char),
    noAdj (last :: r) → dotdot ≤ r.length → noTrail rooted (bottom dotdot r) →
    (∃ a, r = a ++ backtrackLoop dotdot last r) ∧ dotdot ≤ (backtrackLoop dotdot last r).length ∧
      noTrail rooted (backtrackLoop dotdot last r) := by
  intro r
  induction r with
  | nil =>
    intro last _ hd _
    simp only [backtrackLoop]
    exact ⟨⟨[], rfl⟩, hd, noTrail_nil rooted⟩
  | cons c r ih =>
    intro last hadj hd hb
    unfold backtrackLoop
    split
    · rename_i hcond
      simp only [Bool.and_eq_true, decide_eq_true_eq, List.length_cons] at hcond
      have hd' : dotdot ≤ r.length := by omega
      have hb' : noTrail rooted (bottom dotdot r) := by
        have := bottom_append dotdot [c] r hd'
        simp only [List.singleton_append] at this
        rw [← this]; exact hb
      obtain ⟨⟨a, ha⟩, h2, h3⟩ := ih c (List.Chain'.tail hadj) hd' hb'
      refine ⟨⟨c :: a, ?_⟩, h2, h3⟩
      simp only [List.cons_append]; rw [← ha]
    · rename_i hcond
      refine ⟨⟨[], rfl⟩, hd, ?_⟩
      simp only [Bool.and_eq_true, decide_eq_true_eq, List.length_cons, not_and,
        Bool.not_eq_true', Bool.not_eq_false', Bool.not_eq_true] at hcond
      simp only [List.length_cons] at hd
      by_cases hlen : r.length + 1 > dotdot
      · have hlast := hcond hlen
        have hlast' : isSep last = true := by simpa using hlast
        have hc : isSep c = false := by
          have := (List.chain'_cons.mp hadj).1
          by_cases hcs : isSep c = true
          · exact absurd ⟨hlast', hcs⟩ this
          · simpa using hcs
        exact noTrail_cons_of_not_sep rooted c r hc
      · have e : dotdot = (c :: r).length := by simp only [List.length_cons]; omega
        rw [e, bottom_self] at hb
        exact hb

theorem backtrack_inv (rooted : Bool) (dotdot : Nat) (rout : Str)
    (h : BufInv rooted rout dotdot) (hlt : rout.length > dotdot) :
    BufInv rooted (backtrack dotdot rout) dotdot := by
  cases rout with
  | nil => simp at hlt
  | cons c r =>
    simp only [List.length_cons] at hlt
    have hd' : dotdot ≤ r.length := by omega
    have hb' : noTrail rooted (bottom dotdot r) := by
      have := bottom_append dotdot [c] r hd'
      simp only [List.singleton_append] at this
      rw [← this]; exact h.bot
    obtain ⟨⟨a, ha⟩, h2, h3⟩ := backtrackLoop_spec rooted dotdot r c h.adj hd' hb'
    simp only [backtrack]
    refine ⟨h2, ?_, ?_, h3⟩
    · have h1 : noAdj r := List.Chain'.tail h.adj
      unfold noAdj at h1 ⊢
      rw [ha] at h1
      exact List.Chain'.right_of_append h1
    · have e := bottom_append dotdot a (backtrackLoop dotdot c r) h2
      rw [← ha] at e
      rw [← e]; exact hb'

theorem noAdj_push (e r : Str) (he : ∀ x ∈ e, isSep x = false) (hr : noAdj r) :
    noAdj (e ++ r) := by
  induction e with
  | nil => simpa using hr
  | cons x e ih =>
    have hx : isSep x = false := he x (List.mem_cons_self _ _)
    have ih' := ih (fun y hy => he y (List.mem_cons_of_mem _ hy))
    unfold noAdj at ih' ⊢
    simp only [List.cons_append]
    rw [List.chain'_cons']
    refine ⟨?_, ih'⟩
    intro y _ hxy
    rw [hx] at hxy; exact Bool.noConfusion hxy.1

theorem noAdj_slash (rooted : Bool) (rout : Str) (dotdot : Nat)
    (h : BufInv rooted rout dotdot)
    (hnf : ((rooted && rout.length != 1) || (!rooted && rout.length != 0)) = true) :
    noAdj ('/' :: rout) := by
  unfold noAdj
  rw [List.chain'_cons']
  refine ⟨?_, h.adj⟩
  intro y hy hxy
  cases rout with
  | nil => simp at hy
  | cons x t =>
    simp only [List.head?_cons, Option.mem_def, Option.some.injEq] at hy
    subst hy
    obtain ⟨hr, ht⟩ := h.top x t rfl hxy.2
    subst hr; subst ht
    simp at hnf

theorem bottom_cons (dotdot : Nat) (c : Char) (r : Str) (h : dotdot ≤ r.length) :
    bottom dotdot (c :: r) = bottom dotdot r := by
  have := bottom_append dotdot [c] r h
  simpa using this

theorem cleanLoop_noTrail (rooted : Bool) : ∀ (fuel : Nat) (rest rout : Str) (dotdot : Nat),
    BufInv rooted rout dotdot → noTrail rooted (cleanLoop rooted fuel rest rout dotdot) := by
  intro fuel
  induction fuel with
  | zero => intro rest rout dotdot h; simp only [cleanLoop]; exact h.top
  | succ fuel ih =>
    intro rest rout dotdot h
    cases rest with
    | nil => simp only [cleanLoop]; exact h.top
    | cons c rest =>
      simp only [cleanLoop]
      split
      · exact ih _ _ _ h
      · rename_i hc
        have hc' : isSep c = false := by simpa using hc
        split
        · exact ih _ _ _ h
        · split
          · split
            · rename_i hlt
              exact ih _ _ _ (backtrack_inv rooted dotdot rout h (by simpa using hlt))
            · split
              · rename_i hroot
                have hroot' : rooted = false := by simpa using hroot
                apply ih
                have hdot : isSep '.' = false := by decide
                have hadj1 : noAdj (if rout.length > 0 then '/' :: rout else rout) := by
                  split
                  · rename_i hpos
                    apply noAdj_slash rooted rout dotdot h
                    subst hroot'
                    simp only [Bool.false_and, Bool.not_false, Bool.true_and, Bool.false_or,
                      bne_iff_ne, ne_eq]
                    omega
                  · exact h.adj
                have hadj2 : noAdj ('.' :: '.' ::
                    (if rout.length > 0 then '/' :: rout else rout)) := by
                  have := noAdj_push ['.', '.'] _ (by
                    intro x hx
                    simp only [List.mem_cons, List.mem_singleton, List.not_mem_nil, or_false,
                      or_self] at hx
                    subst hx; exact hdot) hadj1
                  simpa using this
                refine ⟨Nat.le_refl _, hadj2, ?_, ?_⟩
                · rw [bottom_self]; exact noTrail_cons_of_not_sep rooted _ _ hdot
                · exact noTrail_cons_of_not_sep rooted _ _ hdot
              · exact ih _ _ _ h
          · -- real element
            apply ih
            have helem : ∀ x ∈ ((c :: rest).takeWhile (fun x => !isSep x)).reverse,
                isSep x = false := by
              intro x hx
              rw [List.mem_reverse] at hx
              have := List.mem_takeWhile_imp hx
              simpa using this
            have hne : ((c :: rest).takeWhile (fun x => !isSep x)).reverse ≠ [] := by
              simp [List.takeWhile_cons, hc']
            have hle1 : dotdot ≤ (if ((rooted && rout.length != 1) ||
                (!rooted && rout.length != 0)) = true then '/' :: rout else rout).length := by
              have := h.le
              split
              · simp only [List.length_cons]; omega
              · omega
            have hadj1 : noAdj (if ((rooted && rout.length != 1) ||
                (!rooted && rout.length != 0)) = true then '/' :: rout else rout) := by
              split
              · rename_i hnf; exact noAdj_slash rooted rout dotdot h hnf
              · exact h.adj
            have hbot1 : bottom dotdot (if ((rooted && rout.length != 1) ||
                (!rooted && rout.length != 0)) = true then '/' :: rout else rout)
                = bottom dotdot rout := by
              split
              · exact bottom_cons dotdot _ rout h.le
              · rfl
            refine ⟨?_, noAdj_push _ _ helem hadj1, ?_, ?_⟩
            · simp only [List.length_append]; omega
            · rw [bottom_append _ _ _ hle1, hbot1]; exact h.bot
            · intro x t e hs
              have hx : x ∈ ((c :: rest).takeWhile (fun x => !isSep x)).reverse := by
                cases hrev : ((c :: rest).takeWhile (fun x => !isSep x)).reverse with
                | nil => exact absurd hrev hne
                | cons y ys =>
                  rw [hrev] at e
                  simp only [List.cons_append, List.cons.injEq] at e
                  rw [← e.1]; exact List.mem_cons_self _ _
              rw [helem x hx] at hs; cases hs

theorem filepathClean_out (s : Str) : CleanOut (filepathClean s) := by
  unfold filepathClean
  cases s with
  | nil => right; exact ⟨'.', [], rfl, by decide⟩
  | cons c s =>
    simp only
    have key : ∀ rout : Str, noTrail (isSep c) rout →
        CleanOut (if rout.isEmpty = true then ['.'] else rout.reverse) := by
      intro rout h
      cases rout with
      | nil => right; exact ⟨'.', [], rfl, by decide⟩
      | cons x t =>
        simp only [List.isEmpty_cons, Bool.false_eq_true, ↓reduceIte]
        by_cases hx : isSep x = true
        · obtain ⟨_, ht⟩ := h x t rfl hx
          subst ht
          left
          have : x = '/' := by simpa [isSep] using hx
          subst this; rfl
        · right; exact ⟨x, t, by simp, by simpa using hx⟩
    apply key
    by_cases hc : isSep c = true
    · simp only [hc, ↓reduceIte]
      apply cleanLoop_noTrail
      refine ⟨by simp, by simp [noAdj], ?_, ?_⟩
      · intro x t e _; simp only [bottom, List.length_singleton, Nat.sub_self, List.drop_zero,
          List.cons.injEq] at e; exact ⟨rfl, e.2.symm⟩
      · intro x t e _; simp only [List.cons.injEq] at e; exact ⟨rfl, e.2.symm⟩
    · have hc' : isSep c = false := by simpa using hc
      simp only [hc', Bool.false_eq_true, ↓reduceIte]
      apply cleanLoop_noTrail
      exact ⟨by simp, by simp [noAdj], noTrail_nil _, noTrail_nil _⟩

theorem filepathClean_length (s : Str) (hs : s ≠ []) :
    (filepathClean s).length ≤ s.length := by
  unfold filepathClean
  cases s with
  | nil => exact absurd rfl hs
  | cons c s =>
    simp only
    have key : ∀ rout : Str, rout.length ≤ (c :: s).length →
        (if rout.isEmpty = true then ['.'] else rout.reverse).length ≤ (c :: s).length := by
      intro rout h
      split
      · simp
      · simpa using h
    apply key
    by_cases hc : isSep c = true
    · simp only [hc, ↓reduceIte, List.tail_cons]
      apply cleanLoop_length
      · simp only [List.length_cons, List.length_nil]; omega
      · intro _ hf; exact absurd (Or.inl ⟨rfl, rfl⟩) hf
    · have hc' : isSep c = false := by simpa using hc
      simp only [hc', Bool.false_eq_true, ↓reduceIte]
      apply cleanLoop_length
      · simp
      · intro _ hf; exact absurd (Or.inr ⟨rfl, rfl⟩) hf

/-! ## Termination of the upward walk of `isIgnored` -/

theorem length_dropWhile_le (p : Char → Bool) (l : Str) : (l.dropWhile p).length ≤ l.length := by
  have := length_takeWhile_add_dropWhile p l
  omega

theorem dirPrefix_length_le (s : Str) : (dirPrefix s).length ≤ s.length := by
  unfold dirPrefix
  have := length_dropWhile_le (fun x => !isSep x) s.reverse
  simpa using this

theorem filepathDir_length (s : Str) : (filepathDir s).length ≤ s.length ∨ filepathDir s = ['.'] := by
  unfold filepathDir
  by_cases h : dirPrefix s = []
  · right; rw [h]; rfl
  · left
    exact Nat.le_trans (filepathClean_length _ h) (dirPrefix_length_le s)

theorem filepathDir_step (d : Str) (h : CleanOut d) :
    filepathDir d = d ∨ climb (filepathDir d) < climb d := by
  rcases h with h | ⟨c, t, hrev, hc⟩
  · left; subst h; decide
  · have hd : d = t.reverse ++ [c] := by
      have := congrArg List.reverse hrev
      simpa using this
    have hlen : d.length = t.length + 1 := by rw [hd]; simp
    have hpre : (dirPrefix d).length ≤ t.length := by
      unfold dirPrefix
      rw [hrev, List.dropWhile_cons]
      simp only [hc, Bool.not_false, ↓reduceIte, List.length_reverse]
      exact length_dropWhile_le _ _
    by_cases hp : dirPrefix d = []
    · have hdir : filepathDir d = ['.'] := by unfold filepathDir; rw [hp]; rfl
      by_cases hdot : d = ['.']
      · left; rw [hdir, hdot]
      · right
        rw [hdir]
        simp only [climb, ↓reduceIte, hdot]
        omega
    · right
      have hl : (filepathDir d).length ≤ (dirPrefix d).length := filepathClean_length _ hp
      have hdot : d ≠ ['.'] := by
        intro hdot
        apply hp
        rw [hdot]; rfl
      simp only [climb, hdot, ↓reduceIte]
      split <;> omega

theorem filepathDir_out (s : Str) : CleanOut (filepathDir s) := filepathClean_out _

theorem climb_filepathDir_le (path : Str) : climb (filepathDir path) ≤ path.length + 2 := by
  rcases filepathDir_length path with h | h
  · unfold climb; split <;> omega
  · rw [h]; simp [climb]

theorem isIgnoredLoop_succ (path : Str) (m : IgnorePatternsMap) (fuel : Nat) (dir : Str) :
    isIgnoredLoop path m (fuel + 1) dir =
      if hitAt path m dir then some true
      else if filepathDir dir = dir then some false
      else isIgnoredLoop path m fuel (filepathDir dir) := by
  simp only [isIgnoredLoop, hitAt]

theorem isIgnoredLoop_terminates (path : Str) (m : IgnorePatternsMap) :
    ∀ (fuel : Nat) (d : Str), CleanOut d → climb d ≤ fuel →
      ∃ b, isIgnoredLoop path m fuel d = some b := by
  intro fuel
  induction fuel with
  | zero =>
    intro d _ h
    unfold climb at h
    split at h <;> omega
  | succ fuel ih =>
    intro d hd h
    rw [isIgnoredLoop_succ]
    split
    · exact ⟨true, rfl⟩
    · split
      · exact ⟨false, rfl⟩
      · rename_i hne
        rcases filepathDir_step d hd with he | hlt
        · exact absurd he hne
        · exact ih _ (filepathDir_out d) (by omega)

theorem isIgnored_some (path : Str) (m : IgnorePatternsMap) :
    ∃ b, isIgnored path m = some b :=
  isIgnoredLoop_terminates path m _ _ (filepathDir_out path) (climb_filepathDir_le path)

theorem iterate_fixed (d : Str) (h : filepathDir d = d) : ∀ k, filepathDir^[k] d = d := by
  intro k
  exact Function.iterate_fixed h k

theorem isIgnoredLoop_spec (path : Str) (m : IgnorePatternsMap) :
    ∀ (fuel : Nat) (d : Str) (b : Bool), isIgnoredLoop path m fuel d = some b →
      (b = true ↔ ∃ k, hitAt path m (filepathDir^[k] d) = true) := by
  intro fuel
  induction fuel with
  | zero => intro d b h; simp [isIgnoredLoop] at h
  | succ fuel ih =>
    intro d b h
    rw [isIgnoredLoop_succ] at h
    split at h
    · rename_i hhit
      simp only [Option.some.injEq] at h
      subst h
      simp only [true_iff]
      exact ⟨0, hhit⟩
    · rename_i hhit
      split at h
      · rename_i hfix
        simp only [Option.some.injEq] at h
        subst h
        simp only [Bool.false_eq_true, false_iff, not_exists]
        intro k
        rw [iterate_fixed d hfix k]
        exact hhit
      · rw [ih _ b h]
        constructor
        · rintro ⟨k, hk⟩
          exact ⟨k + 1, by rw [Function.iterate_succ_apply]; exact hk⟩
        · rintro ⟨k, hk⟩
          cases k with
          | zero => exact absurd hk hhit
          | succ k => exact ⟨k, by rw [Function.iterate_succ_apply] at hk; exact hk⟩

theorem matchesAny_iff (base : Str) (ps : List Str) :
    matchesAny base ps = true ↔ ∃ pat ∈ ps, filepathMatch pat base = some true := by
  induction ps with
  | nil => simp [matchesAny]
  | cons p ps ih =>
    simp only [matchesAny, List.mem_cons, exists_eq_or_imp]
    split
    · rename_i h
      have : filepathMatch p base = some true := by simpa using h
      simp [this]
    · rename_i h
      have : ¬ filepathMatch p base = some true := by simpa using h
      simp [this, ih]

theorem hitAt_iff (path : Str) (m : IgnorePatternsMap) (d : Str) :
    hitAt path m d = true ↔
      ∃ ps, m d = some ps ∧ ∃ pat ∈ ps, filepathMatch pat (filepathBase path) = some true := by
  unfold hitAt
  cases hm : m d with
  | none => simp
  | some ps => simp [matchesAny_iff]

theorem isIgnored_true_iff_hit (path : Str) (m : IgnorePatternsMap) :
    isIgnored path m = some true ↔ ∃ k, hitAt path m (filepathDir^[k + 1] path) = true := by
  obtain ⟨b, hb⟩ := isIgnored_some path m
  have := isIgnoredLoop_spec path m _ _ b hb
  rw [hb]
  simp only [Option.some.injEq, this, Function.iterate_succ_apply]

theorem isIgnored_false_iff_hit (path : Str) (m : IgnorePatternsMap) :
    isIgnored path m = some false ↔ ¬ ∃ k, hitAt path m (filepathDir^[k + 1] path) = true := by
  rw [← isIgnored_true_iff_hit]
  obtain ⟨b, hb⟩ := isIgnored_some path m
  rw [hb]
  cases b <;> simp

theorem filepathDir_fixed_within : ∀ (n : Nat) (d : Str), CleanOut d → climb d ≤ n →
    ∃ k, k < n ∧ filepathDir (filepathDir^[k] d) = filepathDir^[k] d := by
  intro n
  induction n with
  | zero =>
    intro d _ h
    unfold climb at h
    split at h <;> omega
  | succ n ih =>
    intro d hd h
    rcases filepathDir_step d hd with he | hlt
    · exact ⟨0, Nat.succ_pos _, he⟩
    · obtain ⟨k, hk, hfix⟩ := ih _ (filepathDir_out d) (by omega)
      exact ⟨k + 1, by omega, by simpa only [Function.iterate_succ_apply] using hfix⟩

/-- C10: for every path string and every index, the upward walk of `isIgnored`
terminates: among `Dir(path), Dir(Dir(path)), ...` a directory equal to its own
parent is reached within `len(path) + 2` steps, and `isIgnored`, whose loop is
allowed `len(path) + 2` iterations, always returns a boolean. -/
theorem isIgnored_total (path : Str) (m : IgnorePatternsMap) :
    (∃ b, isIgnored path m = some b) ∧
      ∃ k, k < path.length + 2 ∧
        filepathDir (filepathDir^[k + 1] path) = filepathDir^[k + 1] path := by
  refine ⟨isIgnored_some path m, ?_⟩
  obtain ⟨k, hk, hfix⟩ :=
    filepathDir_fixed_within _ _ (filepathDir_out path) (climb_filepathDir_le path)
  exact ⟨k, hk, by simpa only [Function.iterate_succ_apply] using hfix⟩

/-! ## The walk as a run over the pre-order list -/

theorem runVisits_append {σ : Type} (fn : WalkFunc σ) : ∀ (a b : List Visit) (s : σ),
    runVisits fn (a ++ b) s =
      if (runVisits fn a s).2.isSome then runVisits fn a s
      else runVisits fn b (runVisits fn a s).1 := by
  intro a
  induction a with
  | nil => intro b s; simp [runVisits]
  | cons v a ih =>
    intro b s
    simp only [List.cons_append, runVisits]
    split
    · rename_i h; simp [h]
    · exact ih b _

theorem pair_eq_of_not_isSome {σ : Type} (r : σ × Option OsError) (h : ¬ r.2.isSome = true) :
    r = (r.1, none) := by
  obtain ⟨a, b⟩ := r
  cases b with
  | none => rfl
  | some e => simp at h

theorem runVisits_single {σ : Type} (fn : WalkFunc σ) (v : Visit) (s : σ) :
    runVisits fn [v] s = fn v.path v.info v.err s := by
  simp only [runVisits]
  split
  · rfl
  · rename_i h; exact (pair_eq_of_not_isSome _ h).symm

mutual
theorem walk_eq_runVisits {σ : Type} (fn : WalkFunc σ) : ∀ (path : Str) (info : FsNode) (s : σ),
    walk fn path info s = runVisits fn (visits path info) s
  | path, .noStat err, s => by
    simp only [walk, visits, runVisits_single]
  | path, .file data, s => by
    simp only [walk, visits, runVisits_single]
  | path, .dir listErr entries, s => by
    have ih := walkNames_eq_runVisits fn path entries
    simp only [walk, visits, runVisits]
    cases listErr with
    | some e =>
      simp only [Option.isSome_some, Bool.true_or, ↓reduceIte]
      split
      · rfl
      · rename_i h; exact pair_eq_of_not_isSome _ h
    | none =>
      simp only [Option.isSome_none, Bool.false_or, Bool.false_eq_true, ↓reduceIte]
      split
      · rfl
      · exact ih _
theorem walkNames_eq_runVisits {σ : Type} (fn : WalkFunc σ) :
    ∀ (path : Str) (entries : List (Str × FsNode)) (s : σ),
    walkNames fn path entries s = runVisits fn (visitsNames path entries) s
  | path, [], s => by simp only [walkNames, visitsNames, runVisits]
  | path, (name, node) :: rest, s => by
    have ih1 := walk_eq_runVisits fn (filepathJoin path name) node
    have ih2 := walkNames_eq_runVisits fn path rest
    simp only [walkNames, visitsNames, runVisits_append]
    rw [ih1 s]
    split
    · rfl
    · exact ih2 _
end

/-! ## The index build over the pre-order list -/

theorem buildWalkFn_eq (v : Visit) (m : IgnorePatternsMap) :
    buildWalkFn v.path v.info v.err m =
      match visitFailure v with
      | some e => (m, some e)
      | none => (recordVisit m v, none) := by
  obtain ⟨path, info, err⟩ := v
  cases err with
  | some e => simp [buildWalkFn, visitFailure]
  | none =>
    cases info with
    | noStat e => simp [buildWalkFn, visitFailure, recordVisit, visitPatterns]
    | file d => simp [buildWalkFn, visitFailure, recordVisit, visitPatterns]
    | dir le entries =>
      simp only [buildWalkFn, visitFailure, recordVisit, visitPatterns, patternSet]
      cases h : osOpen entries gitignore with
      | openFails e =>
        cases e with
        | notExist => simp [parseGitIgnore, readFailure]
        | other t => simp [parseGitIgnore, readFailure]
      | scanFails t => simp [parseGitIgnore, readFailure]
      | lines ls => simp [parseGitIgnore, readFailure]

theorem runVisits_build : ∀ (vs : List Visit) (m : IgnorePatternsMap),
    runVisits buildWalkFn vs m =
      ((before buildFails vs).foldl recordVisit m, vs.findSome? visitFailure) := by
  intro vs
  induction vs with
  | nil => intro m; rfl
  | cons v vs ih =>
    intro m
    simp only [runVisits, buildWalkFn_eq, before, List.takeWhile_cons, List.findSome?_cons,
      buildFails]
    cases h : visitFailure v with
    | some e => simp
    | none =>
      simp only [Option.isSome_none, Bool.false_eq_true, ↓reduceIte, Bool.not_false,
        List.foldl_cons]
      have := ih (recordVisit m v)
      simpa only [before, buildFails] using this

theorem buildIgnorePatternsMap_eq (rootPath : Str) (root : FsNode) :
    buildIgnorePatternsMap rootPath root =
      ((before buildFails (visits rootPath root)).foldl recordVisit (fun _ => none),
        (visits rootPath root).findSome? visitFailure) := by
  unfold buildIgnorePatternsMap filepathWalk
  rw [walk_eq_runVisits, runVisits_build]

theorem visitPatterns_isSome (v : Visit) : (visitPatterns v).isSome = v.info.isDir := by
  obtain ⟨path, info, err⟩ := v
  cases info <;> rfl

theorem recordVisit_apply (m : IgnorePatternsMap) (v : Visit) (q : Str) :
    recordVisit m v q = if v.info.isDir = true ∧ q = v.path then visitPatterns v else m q := by
  have hs := visitPatterns_isSome v
  unfold recordVisit
  cases hp : visitPatterns v with
  | none =>
    rw [hp] at hs
    have : v.info.isDir = false := by simpa using hs.symm
    simp [this]
  | some ps =>
    rw [hp] at hs
    have : v.info.isDir = true := by simpa using hs.symm
    simp [this, mapInsert]

theorem foldl_recordVisit_isSome : ∀ (l : List Visit) (m : IgnorePatternsMap) (q : Str),
    ((l.foldl recordVisit m) q).isSome = true ↔
      (m q).isSome = true ∨ ∃ v ∈ l, v.path = q ∧ v.info.isDir = true := by
  intro l
  induction l with
  | nil => intro m q; simp
  | cons w l ih =>
    intro m q
    rw [List.foldl_cons, ih, recordVisit_apply]
    by_cases hw : w.info.isDir = true ∧ q = w.path
    · have hl : ((if w.info.isDir = true ∧ q = w.path then visitPatterns w else m q).isSome
          = true) := by
        rw [if_pos hw, visitPatterns_isSome]; exact hw.1
      constructor
      · intro _; exact Or.inr ⟨w, List.mem_cons_self _ _, hw.2.symm, hw.1⟩
      · intro _; exact Or.inl hl
    · simp only [hw, ↓reduceIte, List.mem_cons, exists_eq_or_imp]
      constructor
      · rintro (h | h)
        · exact Or.inl h
        · exact Or.inr (Or.inr h)
      · rintro (h | ⟨h1, h2⟩ | h)
        · exact Or.inl h
        · exact absurd ⟨h2, h1.symm⟩ hw
        · exact Or.inr h

theorem foldl_recordVisit_of_not_mem : ∀ (l : List Visit) (m : IgnorePatternsMap) (q : Str),
    q ∉ dirPaths l → (l.foldl recordVisit m) q = m q := by
  intro l
  induction l with
  | nil => intro m q _; rfl
  | cons w l ih =>
    intro m q hq
    rw [List.foldl_cons]
    have h1 : q ∉ dirPaths l := by
      intro h; apply hq
      unfold dirPaths at h ⊢
      simp only [List.mem_map, List.mem_filter, List.mem_cons] at h ⊢
      obtain ⟨v, ⟨hv, hd⟩, hp⟩ := h
      exact ⟨v, ⟨Or.inr hv, hd⟩, hp⟩
    rw [ih _ _ h1, recordVisit_apply]
    have h2 : ¬ (w.info.isDir = true ∧ q = w.path) := by
      rintro ⟨hd, hp⟩
      apply hq
      unfold dirPaths
      simp only [List.mem_map, List.mem_filter, List.mem_cons]
      exact ⟨w, ⟨Or.inl rfl, hd⟩, hp.symm⟩
    simp [h2]

theorem foldl_recordVisit_value : ∀ (l : List Visit) (m : IgnorePatternsMap),
    (dirPaths l).Nodup → ∀ v ∈ l, v.info.isDir = true →
      (l.foldl recordVisit m) v.path = visitPatterns v := by
  intro l
  induction l with
  | nil => intro m _ v hv; cases hv
  | cons w l ih =>
    intro m hnd v hv hd
    rw [List.foldl_cons]
    by_cases hwd : w.info.isDir = true
    · have e : dirPaths (w :: l) = w.path :: dirPaths l := by
        simp [dirPaths, List.filter_cons, hwd]
      rw [e, List.nodup_cons] at hnd
      rcases List.mem_cons.mp hv with rfl | hv'
      · rw [foldl_recordVisit_of_not_mem _ _ _ hnd.1, recordVisit_apply]
        simp [hd]
      · exact ih _ hnd.2 v hv' hd
    · have e : dirPaths (w :: l) = dirPaths l := by
        simp [dirPaths, List.filter_cons, hwd]
      rw [e] at hnd
      rcases List.mem_cons.mp hv with rfl | hv'
      · exact absurd hd hwd
      · exact ih _ hnd v hv' hd

theorem before_eq_self (bad : Visit → Bool) (vs : List Visit)
    (h : ∀ v ∈ vs, bad v = false) : before bad vs = vs := by
  unfold before
  rw [List.takeWhile_eq_self_iff]
  intro v hv
  simp [h v hv]

theorem findSome?_visitFailure_none (vs : List Visit)
    (h : vs.findSome? visitFailure = none) : ∀ v ∈ vs, buildFails v = false := by
  intro v hv
  rw [List.findSome?_eq_none_iff] at h
  simp [buildFails, h v hv]

theorem findSome?_split (f : Visit → Option OsError) : ∀ (vs : List Visit) (e : OsError),
    vs.findSome? f = some e →
      ∃ pre v post, vs = pre ++ v :: post ∧ (∀ u ∈ pre, f u = none) ∧ f v = some e := by
  intro vs
  induction vs with
  | nil => intro e h; simp at h
  | cons w vs ih =>
    intro e h
    rw [List.findSome?_cons] at h
    cases hw : f w with
    | some e' =>
      rw [hw] at h
      simp only [Option.some.injEq] at h
      subst h
      exact ⟨[], w, vs, rfl, by simp, hw⟩
    | none =>
      rw [hw] at h
      obtain ⟨pre, v, post, h1, h2, h3⟩ := ih e h
      refine ⟨w :: pre, v, post, by rw [h1]; rfl, ?_, h3⟩
      intro u hu
      rcases List.mem_cons.mp hu with rfl | hu'
      · exact hw
      · exact h2 u hu'

theorem before_split (bad : Visit → Bool) (pre : List Visit) (v : Visit) (post : List Visit)
    (hpre : ∀ u ∈ pre, bad u = false) (hv : bad v = true) :
    before bad (pre ++ v :: post) = pre := by
  unfold before
  induction pre with
  | nil => simp [hv]
  | cons w pre ih =>
    have hw := hpre w (List.mem_cons_self _ _)
    simp only [List.cons_append, List.takeWhile_cons, hw, Bool.not_false, ↓reduceIte,
      List.cons.injEq, true_and]
    exact ih (fun u hu => hpre u (List.mem_cons_of_mem _ hu))

theorem mem_dirPaths (vs : List Visit) (q : Str) :
    q ∈ dirPaths vs ↔ ∃ v ∈ vs, v.path = q ∧ v.info.isDir = true := by
  unfold dirPaths
  simp only [List.mem_map, List.mem_filter]
  constructor
  · rintro ⟨v, ⟨h1, h2⟩, h3⟩; exact ⟨v, h1, h3, h2⟩
  · rintro ⟨v, h1, h3, h2⟩; exact ⟨v, ⟨h1, h2⟩, h3⟩

/-! ## Rendering over the pre-order list -/

theorem runVisits_print (path : Str) (m : IgnorePatternsMap) :
    ∀ (vs : List Visit) (out : List Str),
    runVisits (printWalkFn path m) vs out =
      (out ++ ((before walkFails vs).filter (isPrinted path m)).map
          (fun v => entryLine path v.path),
        vs.findSome? (fun v => v.err)) := by
  intro vs
  induction vs with
  | nil => intro out; simp [runVisits, before]
  | cons v vs ih =>
    intro out
    simp only [runVisits, before, List.takeWhile_cons, List.findSome?_cons, walkFails]
    cases he : v.err with
    | some e => simp [printWalkFn]
    | none =>
      simp only [printWalkFn, Option.isSome_none, Bool.not_false, ↓reduceIte, List.filter_cons,
        isPrinted]
      split
      · simp only [Option.isSome_none, Bool.false_eq_true, ↓reduceIte]
        rw [ih]
        simp [before, walkFails, isPrinted]
      · simp only [Option.isSome_none, Bool.false_eq_true, ↓reduceIte]
        rw [ih]
        simp [before, walkFails, isPrinted]

theorem printTree_eq (path : Str) (root : FsNode) (m : IgnorePatternsMap)
    (hroot : ∀ e, root ≠ .noStat e) (hnot : isIgnored path m = some false) :
    printTree path root m =
      filepathBase path ::
        ((before walkFails (visits path root)).filter (isPrinted path m)).map
          (fun v => entryLine path v.path) := by
  unfold printTree
  cases root with
  | noStat e => exact absurd rfl (hroot e)
  | file d =>
    simp only [hnot, filepathWalk, walk_eq_runVisits, runVisits_print]
    rfl
  | dir le entries =>
    simp only [hnot, filepathWalk, walk_eq_runVisits, runVisits_print]
    rfl

/-! ## `filepath.Join` and `filepath.Base` on absolute clean paths -/

theorem normalName_iff (e : Str) :
    normalName e = true ↔
      e ≠ [] ∧ (∀ c ∈ e, isSep c = false) ∧ e ≠ ['.'] ∧ e ≠ ['.', '.'] := by
  unfold normalName
  cases e with
  | nil => simp
  | cons c e => simp [and_assoc]

theorem span_elem (e rest : Str) (he : ∀ c ∈ e, isSep c = false) (hr : atElemEnd rest = true) :
    (e ++ rest).takeWhile (fun x => !isSep x) = e ∧
      (e ++ rest).dropWhile (fun x => !isSep x) = rest := by
  induction e with
  | nil =>
    cases rest with
    | nil => simp
    | cons d rest =>
      have : isSep d = true := hr
      simp [List.takeWhile_cons, List.dropWhile_cons, this]
  | cons c e ih =>
    have hc := he c (List.mem_cons_self _ _)
    have ih' := ih (fun x hx => he x (List.mem_cons_of_mem _ hx))
    simp [List.takeWhile_cons, List.dropWhile_cons, hc, ih'.1, ih'.2]

theorem atElemEnd_append (e rest : Str) (c : Char) (e' : Str) (h : e = c :: e')
    (hc : isSep c = false) : atElemEnd (e ++ rest) = false := by
  subst h; simpa [atElemEnd] using hc

theorem cleanLoop_elem (rooted : Bool) (fuel : Nat) (e rest rout : Str) (dotdot : Nat)
    (he : normalName e = true) (hr : atElemEnd rest = true) :
    cleanLoop rooted (fuel + 1) (e ++ rest) rout dotdot =
      cleanLoop rooted fuel rest
        (e.reverse ++ (if ((rooted && rout.length != 1) || (!rooted && rout.length != 0)) = true
          then '/' :: rout else rout)) dotdot := by
  obtain ⟨hne, hsep, hdot, hdd⟩ := (normalName_iff e).mp he
  have hspan := span_elem e rest hsep hr
  cases e with
  | nil => exact absurd rfl hne
  | cons c e' =>
    have hc : isSep c = false := hsep c (List.mem_cons_self _ _)
    simp only [List.cons_append] at hspan ⊢
    simp only [cleanLoop, hc, Bool.false_eq_true, ↓reduceIte]
    have h2 : (c == '.' && atElemEnd (e' ++ rest)) = false := by
      cases e' with
      | nil =>
        have : c ≠ '.' := by intro h; apply hdot; rw [h]
        simp [this]
      | cons d e'' =>
        have hd : isSep d = false := hsep d (by simp)
        simp [atElemEnd, hd]
    have h3 : (c == '.' && (e' ++ rest).head? == some '.' && atElemEnd (e' ++ rest).tail)
        = false := by
      cases e' with
      | nil =>
        have : c ≠ '.' := by intro h; apply hdot; rw [h]
        simp [this]
      | cons d e'' =>
        cases e'' with
        | nil =>
          have : ¬ (c = '.' ∧ d = '.') := by
            rintro ⟨h1, h2⟩; apply hdd; rw [h1, h2]
          by_cases h1 : c = '.'
          · have : d ≠ '.' := fun h2 => this ⟨h1, h2⟩
            simp [this]
          · simp [h1]
        | cons x e3 =>
          have hx : isSep x = false := hsep x (by simp)
          simp [atElemEnd, hx]
    rw [h2, h3]
    simp only [Bool.false_eq_true, ↓reduceIte]
    rw [hspan.1, hspan.2]

theorem cleanLoop_nil (rooted : Bool) (fuel : Nat) (rout : Str) (dotdot : Nat) :
    cleanLoop rooted fuel [] rout dotdot = rout := by
  cases fuel <;> simp [cleanLoop]

theorem atElemEnd_relJoin (es : List Str) : atElemEnd (relJoin es) = true := by
  cases es <;> rfl

theorem relJoin_append (a b : List Str) : relJoin (a ++ b) = relJoin a ++ relJoin b := by
  induction a with
  | nil => rfl
  | cons e a ih => simp [relJoin, ih]

theorem relJoin_cons (e : Str) (es : List Str) :
    relJoin (e :: es) = '/' :: (e ++ relJoin es) := by
  simp [relJoin]

theorem filepathClean_rooted (s : Str) :
    filepathClean ('/' :: s) =
      if (cleanLoop true (s.length + 1) s ['/'] 1).isEmpty = true then ['.']
      else (cleanLoop true (s.length + 1) s ['/'] 1).reverse := by
  have hrooted : isSep '/' = true := by decide
  simp only [filepathClean, hrooted, ↓reduceIte, List.tail_cons, List.length_cons]

theorem cleanLoop_relJoin : ∀ (es : List Str) (fuel : Nat) (rout : Str) (dotdot : Nat),
    (∀ e ∈ es, normalName e = true) → 2 ≤ rout.length → (relJoin es).length ≤ fuel →
    cleanLoop true fuel (relJoin es) rout dotdot = (relJoin es).reverse ++ rout := by
  intro es
  induction es with
  | nil => intro fuel rout dotdot _ _ _; simp [relJoin, cleanLoop_nil]
  | cons e es ih =>
    intro fuel rout dotdot hes hrout hfuel
    have he := hes e (List.mem_cons_self _ _)
    have hne : e ≠ [] := ((normalName_iff e).mp he).1
    have hel : 1 ≤ e.length := by
      cases e with
      | nil => exact absurd rfl hne
      | cons c e' => simp
    simp only [relJoin_cons, List.length_cons, List.length_append] at hfuel
    obtain ⟨f, rfl⟩ : ∃ f, fuel = f + 2 := ⟨fuel - 2, by omega⟩
    have step1 : cleanLoop true (f + 2) (relJoin (e :: es)) rout dotdot =
        cleanLoop true (f + 1) (e ++ relJoin es) rout dotdot := by
      rw [relJoin_cons]; simp [cleanLoop, isSep]
    rw [step1, cleanLoop_elem true f e (relJoin es) rout dotdot he (atElemEnd_relJoin es)]
    have hn1 : ((true && rout.length != 1) || (!true && rout.length != 0)) = true := by
      simp only [Bool.true_and, Bool.not_true, Bool.false_and, Bool.or_false, bne_iff_ne, ne_eq]
      omega
    rw [if_pos hn1]
    rw [ih f _ dotdot (fun x hx => hes x (List.mem_cons_of_mem _ hx))
      (by simp only [List.length_append, List.length_reverse, List.length_cons]; omega)
      (by omega)]
    simp [relJoin]

theorem filepathClean_relJoin (e : Str) (es : List Str)
    (hes : ∀ x ∈ e :: es, normalName x = true) :
    filepathClean (relJoin (e :: es)) = relJoin (e :: es) := by
  have he := hes e (List.mem_cons_self _ _)
  have hne : e ≠ [] := ((normalName_iff e).mp he).1
  have hel : 1 ≤ e.length := by
    cases e with
    | nil => exact absurd rfl hne
    | cons c e' => simp
  rw [relJoin_cons, filepathClean_rooted, List.length_append]
  rw [cleanLoop_elem true _ e (relJoin es) ['/'] 1 he (atElemEnd_relJoin es)]
  simp only [List.length_singleton, bne_self_eq_false, Bool.and_false, Bool.not_true,
    Bool.false_and, Bool.or_self, Bool.false_eq_true, ↓reduceIte]
  rw [cleanLoop_relJoin es _ _ 1 (fun x hx => hes x (List.mem_cons_of_mem _ hx))
    (by simp only [List.length_append, List.length_reverse, List.length_singleton]; omega)
    (by omega)]
  have hnil : ((relJoin es).reverse ++ (e.reverse ++ ['/'])).isEmpty = false := by
    simp
  rw [hnil]
  simp

theorem filepathClean_root_name (n : Str) (hn : normalName n = true) :
    filepathClean ('/' :: '/' :: n) = '/' :: n := by
  have hne : n ≠ [] := ((normalName_iff n).mp hn).1
  rw [filepathClean_rooted, List.length_cons]
  have step1 : cleanLoop true (n.length + 1 + 1) ('/' :: n) ['/'] 1 =
      cleanLoop true (n.length + 1) (n ++ []) ['/'] 1 := by
    simp [cleanLoop, isSep]
  rw [step1, cleanLoop_elem true _ n [] ['/'] 1 hn rfl, cleanLoop_nil]
  simp only [List.length_singleton, bne_self_eq_false, Bool.and_false, Bool.not_true,
    Bool.false_and, Bool.or_self, Bool.false_eq_true, ↓reduceIte]
  have hnil : (n.reverse ++ ['/']).isEmpty = false := by simp
  rw [hnil]
  simp

theorem filepathJoin_absPath (es : List Str) (n : Str)
    (hes : ∀ x ∈ es, normalName x = true) (hn : normalName n = true) :
    filepathJoin (absPath es) n = absPath (es ++ [n]) := by
  cases es with
  | nil =>
    simp only [filepathJoin, absPath, List.isEmpty_nil, ↓reduceIte, List.isEmpty_cons,
      Bool.not_false, List.singleton_append, List.nil_append, Bool.false_eq_true]
    rw [filepathClean_root_name n hn]
    simp [relJoin]
  | cons e es =>
    have h1 : absPath (e :: es) = relJoin (e :: es) := by simp [absPath]
    have h2 : absPath (e :: es ++ [n]) = relJoin (e :: (es ++ [n])) := by simp [absPath]
    have h3 : (relJoin (e :: es)).isEmpty = false := by simp [relJoin]
    rw [h1, h2]
    simp only [filepathJoin, h3, Bool.not_false, ↓reduceIte]
    have h4 : relJoin (e :: es) ++ '/' :: n = relJoin (e :: (es ++ [n])) := by
      have := relJoin_append (e :: es) [n]
      simp only [List.cons_append] at this
      rw [this]; simp [relJoin]
    rw [h4]
    apply filepathClean_relJoin
    intro x hx
    simp only [List.mem_cons, List.mem_append, List.mem_singleton, List.not_mem_nil,
      or_false] at hx
    rcases hx with rfl | hx | rfl
    · exact hes _ (List.mem_cons_self _ _)
    · exact hes _ (List.mem_cons_of_mem _ hx)
    · exact hn

theorem foldl_filepathJoin_absPath : ∀ (ns es : List Str),
    (∀ x ∈ es, normalName x = true) → (∀ x ∈ ns, normalName x = true) →
    ns.foldl filepathJoin (absPath es) = absPath (es ++ ns) := by
  intro ns
  induction ns with
  | nil => intro es _ _; simp
  | cons n ns ih =>
    intro es hes hns
    rw [List.foldl_cons, filepathJoin_absPath es n hes (hns n (List.mem_cons_self _ _))]
    rw [ih (es ++ [n])]
    · simp
    · intro x hx
      rcases List.mem_append.mp hx with h | h
      · exact hes x h
      · simp only [List.mem_singleton] at h; subst h; exact hns _ (List.mem_cons_self _ _)
    · exact fun x hx => hns x (List.mem_cons_of_mem _ hx)

theorem filepathBase_append_name (x n : Str) (hn : normalName n = true) :
    filepathBase (x ++ '/' :: n) = n := by
  obtain ⟨hne, hsep, _, _⟩ := (normalName_iff n).mp hn
  have hrev : (x ++ '/' :: n).reverse = n.reverse ++ '/' :: x.reverse := by simp
  have hsep' : ∀ c ∈ n.reverse, isSep c = false := fun c hc => hsep c (List.mem_reverse.mp hc)
  have hspan := span_elem n.reverse ('/' :: x.reverse) hsep' rfl
  have hdrop : (n.reverse ++ '/' :: x.reverse).dropWhile isSep = n.reverse ++ '/' :: x.reverse := by
    cases hr : n.reverse with
    | nil => exact absurd (List.reverse_eq_nil_iff.mp hr) hne
    | cons c r =>
      have hc : isSep c = false := hsep' c (by rw [hr]; exact List.mem_cons_self _ _)
      simp [List.dropWhile_cons, hc]
  have hemp : (x ++ '/' :: n).isEmpty = false := by
    cases x <;> simp
  have hn' : n.isEmpty = false := by
    cases n with
    | nil => exact absurd rfl hne
    | cons c n => rfl
  unfold filepathBase
  simp only [hemp, Bool.false_eq_true, ↓reduceIte, hrev, hdrop, hspan.1, List.reverse_reverse, hn']

theorem removeFirst_append (old t : Str) : removeFirst old (old ++ t) = t := by
  cases h : old ++ t with
  | nil =>
    have := List.append_eq_nil.mp h
    rw [this.2]; rfl
  | cons c s =>
    have hp : old.isPrefixOf (c :: s) = true := by
      rw [← h, List.isPrefixOf_iff_prefix]
      exact List.prefix_append _ _
    simp only [removeFirst, hp, ↓reduceIte]
    rw [← h, List.drop_left]

theorem splitSep_ne_nil (s : Str) : splitSep s ≠ [] := by
  cases s with
  | nil => simp [splitSep]
  | cons c s =>
    simp only [splitSep]
    split
    · simp
    · split <;> simp

theorem length_splitSep_elem (e s : Str) (he : ∀ c ∈ e, isSep c = false) :
    (splitSep (e ++ s)).length = (splitSep s).length := by
  induction e with
  | nil => rfl
  | cons c e ih =>
    have hc := he c (List.mem_cons_self _ _)
    have ih' := ih (fun x hx => he x (List.mem_cons_of_mem _ hx))
    simp only [List.cons_append, splitSep, hc, Bool.false_eq_true, ↓reduceIte]
    cases h : splitSep (e ++ s) with
    | nil => exact absurd h (splitSep_ne_nil _)
    | cons a b => rw [← ih', h]; rfl

theorem length_splitSep_relJoin : ∀ (ns : List Str), (∀ x ∈ ns, normalName x = true) →
    (splitSep (relJoin ns)).length = ns.length + 1 := by
  intro ns
  induction ns with
  | nil => intro _; rfl
  | cons n ns ih =>
    intro hns
    have hn := ((normalName_iff n).mp (hns n (List.mem_cons_self _ _))).2.1
    have hs : isSep '/' = true := by decide
    rw [relJoin_cons]
    simp only [splitSep, hs, ↓reduceIte, List.length_cons]
    rw [length_splitSep_elem n _ hn, ih (fun x hx => hns x (List.mem_cons_of_mem _ hx))]

theorem length_relJoin_pos (ns : List Str) (hns : ∀ x ∈ ns, normalName x = true) (hne : ns ≠ []) :
    2 ≤ (relJoin ns).length := by
  cases ns with
  | nil => exact absurd rfl hne
  | cons n ns =>
    have hn := ((normalName_iff n).mp (hns n (List.mem_cons_self _ _))).1
    rw [relJoin_cons]
    cases n with
    | nil => exact absurd rfl hn
    | cons c n => simp only [List.cons_append, List.length_cons]; omega

theorem entryLine_absPath (es ns : List Str) (hes : ∀ x ∈ es, normalName x = true)
    (hns : ∀ x ∈ ns, normalName x = true) (hne : ns ≠ []) :
    entryLine (absPath es) (absPath (es ++ ns)) =
      repeatStr "   ".toList (ns.length - (if es.isEmpty then 1 else 0)) ++ "├──".toList ++
        ns.getLast hne := by
  have hbase : filepathBase (absPath (es ++ ns)) = ns.getLast hne := by
    have hsplit : es ++ ns = (es ++ ns.dropLast) ++ [ns.getLast hne] := by
      rw [List.append_assoc, List.dropLast_append_getLast hne]
    have hnil : (es ++ ns).isEmpty = false := by
      cases es with
      | nil =>
        cases ns with
        | nil => exact absurd rfl hne
        | cons n ns => rfl
      | cons e es => rfl
    have e1 : absPath (es ++ ns) = relJoin (es ++ ns.dropLast) ++ '/' :: ns.getLast hne := by
      unfold absPath
      rw [hnil]
      simp only [Bool.false_eq_true, ↓reduceIte]
      rw [hsplit, relJoin_append]
      simp [relJoin]
    rw [e1]
    exact filepathBase_append_name _ _ (hns _ (List.getLast_mem hne))
  have hcount : (splitSep (removeFirst (absPath es) (absPath (es ++ ns)))).length - 1 =
      ns.length - (if es.isEmpty then 1 else 0) := by
    cases es with
    | nil =>
      cases ns with
      | nil => exact absurd rfl hne
      | cons n ns =>
        have hn := ((normalName_iff n).mp (hns n (List.mem_cons_self _ _))).2.1
        have e1 : absPath ([] ++ n :: ns) = ['/'] ++ (n ++ relJoin ns) := by
          simp [absPath, relJoin_cons]
        have e2 : absPath [] = ['/'] := rfl
        rw [e1, e2, removeFirst_append, length_splitSep_elem n _ hn,
          length_splitSep_relJoin ns (fun x hx => hns x (List.mem_cons_of_mem _ hx))]
        simp
    | cons e es =>
      have e1 : absPath (e :: es ++ ns) = relJoin (e :: es) ++ relJoin ns := by
        rw [← relJoin_append]; simp [absPath]
      have e2 : absPath (e :: es) = relJoin (e :: es) := by simp [absPath]
      rw [e1, e2, removeFirst_append, length_splitSep_relJoin ns hns]
      simp
  unfold entryLine
  simp only [hbase, hcount]

theorem absPath_append_ne (es ns : List Str) (hns : ∀ x ∈ ns, normalName x = true)
    (hne : ns ≠ []) : absPath (es ++ ns) ≠ absPath es := by
  intro h
  have hl := congrArg List.length h
  have h2 := length_relJoin_pos ns hns hne
  cases es with
  | nil =>
    have e1 : absPath ([] ++ ns) = relJoin ns := by
      cases ns with
      | nil => exact absurd rfl hne
      | cons n ns => simp [absPath]
    rw [e1] at hl
    simp only [absPath, List.isEmpty_nil, ↓reduceIte, List.length_singleton] at hl
    omega
  | cons e es =>
    have e1 : absPath (e :: es ++ ns) = relJoin (e :: es) ++ relJoin ns := by
      rw [← relJoin_append]; simp [absPath]
    have e2 : absPath (e :: es) = relJoin (e :: es) := by simp [absPath]
    rw [e1, e2, List.length_append] at hl
    omega

/-! ## Pattern files -/

theorem scanPatterns_eq : ∀ (ls acc : List Str),
    scanPatterns acc ls = acc ++ (ls.map trimSpace).filter isPattern := by
  intro ls
  induction ls with
  | nil => intro acc; simp [scanPatterns]
  | cons l ls ih =>
    intro acc
    simp only [scanPatterns, List.map_cons, List.filter_cons, isPattern]
    split
    · rw [ih]; simp
    · rw [ih]

theorem dropWhile_of_head (p : Char → Bool) (l : Str)
    (h : ∀ c, l.head? = some c → p c = false) : l.dropWhile p = l := by
  cases l with
  | nil => rfl
  | cons c l =>
    have := h c rfl
    simp [List.dropWhile_cons, this]

theorem head_dropWhile (p : Char → Bool) (l : Str) :
    ∀ c, (l.dropWhile p).head? = some c → p c = false := by
  induction l with
  | nil => intro c h; simp at h
  | cons d l ih =>
    intro c h
    rw [List.dropWhile_cons] at h
    split at h
    · exact ih c h
    · rename_i hd
      simp only [List.head?_cons, Option.some.injEq] at h
      subst h; simpa using hd

theorem head_dropLast_part (p : Char → Bool) (u : Str)
    (h : ∀ c, u.head? = some c → p c = false) :
    ∀ c, ((u.reverse.dropWhile p).reverse).head? = some c → p c = false := by
  intro c hc
  have hu : u = (u.reverse.dropWhile p).reverse ++ (u.reverse.takeWhile p).reverse := by
    have := List.takeWhile_append_dropWhile p u.reverse
    have h2 := congrArg List.reverse this
    simp only [List.reverse_append, List.reverse_reverse] at h2
    exact h2.symm
  apply h
  rw [hu]
  cases ht : (u.reverse.dropWhile p).reverse with
  | nil => rw [ht] at hc; simp at hc
  | cons d t =>
    rw [ht] at hc
    simp only [List.head?_cons, Option.some.injEq] at hc
    subst hc
    rfl

theorem trimSpace_idem (s : Str) : trimSpace (trimSpace s) = trimSpace s := by
  unfold trimSpace
  have h1 := head_dropLast_part isSpace (s.dropWhile isSpace) (head_dropWhile isSpace s)
  rw [dropWhile_of_head isSpace _ h1, List.reverse_reverse,
    dropWhile_of_head isSpace _ (head_dropWhile isSpace _)]

theorem parsed_patterns (ls : List Str) :
    ∀ p ∈ (ls.map trimSpace).filter isPattern,
      p ≠ [] ∧ hasPrefix p ['#'] = false ∧ trimSpace p = p := by
  intro p hp
  simp only [List.mem_filter, List.mem_map] at hp
  obtain ⟨⟨l, _, hl⟩, hk⟩ := hp
  simp only [isPattern, Bool.and_eq_true, bne_iff_ne, ne_eq, Bool.not_eq_true',
    Bool.not_eq_eq_eq_not, Bool.not_true] at hk
  refine ⟨hk.1, hk.2, ?_⟩
  rw [← hl, trimSpace_idem]

/-! ## The paths of the entries below an absolute clean root -/

mutual
theorem visits_path_absPath : ∀ (info : FsNode) (es : List Str),
    (∀ x ∈ es, normalName x = true) → normalTree info = true →
    ∀ v ∈ visits (absPath es) info,
      ∃ ns, (∀ x ∈ ns, normalName x = true) ∧ v.path = absPath (es ++ ns)
  | .noStat err, es, _, _ => by
    intro v hv
    simp only [visits, List.mem_singleton] at hv
    exact ⟨[], by simp, by rw [hv]; simp⟩
  | .file data, es, _, _ => by
    intro v hv
    simp only [visits, List.mem_singleton] at hv
    exact ⟨[], by simp, by rw [hv]; simp⟩
  | .dir listErr entries, es, hes, hn => by
    intro v hv
    have ih := visitsNames_path_absPath entries es hes (by simpa [normalTree] using hn)
    simp only [visits, List.mem_cons] at hv
    rcases hv with rfl | hv
    · exact ⟨[], by simp, by simp⟩
    · split at hv
      · cases hv
      · obtain ⟨ns, _, h2, h3⟩ := ih v hv
        exact ⟨ns, h2, h3⟩
theorem visitsNames_path_absPath : ∀ (entries : List (Str × FsNode)) (es : List Str),
    (∀ x ∈ es, normalName x = true) → normalEntries entries = true →
    ∀ v ∈ visitsNames (absPath es) entries,
      ∃ ns, ns ≠ [] ∧ (∀ x ∈ ns, normalName x = true) ∧ v.path = absPath (es ++ ns)
  | [], es, _, _ => by
    intro v hv
    simp [visitsNames] at hv
  | (name, node) :: rest, es, hes, hn => by
    intro v hv
    simp only [normalEntries, Bool.and_eq_true] at hn
    obtain ⟨⟨hname, hnode⟩, hrest⟩ := hn
    have hes' : ∀ x ∈ es ++ [name], normalName x = true := by
      intro x hx
      rcases List.mem_append.mp hx with h | h
      · exact hes x h
      · simp only [List.mem_singleton] at h; subst h; exact hname
    have ih1 := visits_path_absPath node (es ++ [name]) hes' hnode
    have ih2 := visitsNames_path_absPath rest es hes hrest
    simp only [visitsNames, List.mem_append] at hv
    rcases hv with hv | hv
    · rw [filepathJoin_absPath es name hes hname] at hv
      obtain ⟨ns, h2, h3⟩ := ih1 v hv
      refine ⟨name :: ns, by simp, ?_, by rw [h3]; simp⟩
      intro x hx
      rcases List.mem_cons.mp hx with rfl | hx'
      · exact hname
      · exact h2 x hx'
    · exact ih2 v hv
end

theorem visits_tail_path_ne (root : FsNode) (es : List Str)
    (hes : ∀ x ∈ es, normalName x = true) (hn : normalTree root = true) :
    ∀ v ∈ (visits (absPath es) root).tail, v.path ≠ absPath es := by
  intro v hv
  cases root with
  | noStat e => simp [visits] at hv
  | file d => simp [visits] at hv
  | dir le entries =>
    simp only [visits, List.tail_cons] at hv
    split at hv
    · cases hv
    · obtain ⟨ns, h1, h2, h3⟩ :=
        visitsNames_path_absPath entries es hes (by simpa [normalTree] using hn) v hv
      rw [h3]
      exact absPath_append_ne es ns h2 h1

/-! ## The iteration bounds of the library loops are never reached -/

theorem cleanLoop_fuel_succ (rooted : Bool) : ∀ (fuel : Nat) (rest rout : Str) (dotdot : Nat),
    rest.length ≤ fuel →
    cleanLoop rooted (fuel + 1) rest rout dotdot = cleanLoop rooted fuel rest rout dotdot := by
  intro fuel
  induction fuel with
  | zero =>
    intro rest rout dotdot h
    cases rest with
    | nil => simp [cleanLoop]
    | cons c rest => simp at h
  | succ fuel ih =>
    intro rest rout dotdot h
    cases rest with
    | nil => simp [cleanLoop]
    | cons c rest =>
      simp only [List.length_cons] at h
      have hrest : rest.length ≤ fuel := by omega
      have htail : rest.tail.length ≤ fuel := by
        have := List.length_tail rest; omega
      have hdrop : ((c :: rest).dropWhile (fun x => !isSep x)).length ≤ fuel ∨ isSep c = true := by
        by_cases hc : isSep c = true
        · exact Or.inr hc
        · left
          have hc' : isSep c = false := by simpa using hc
          rw [List.dropWhile_cons]
          simp only [hc', Bool.not_false, ↓reduceIte]
          exact Nat.le_trans (length_dropWhile_le _ _) hrest
      simp only [cleanLoop]
      split
      · exact ih _ _ _ hrest
      · rename_i hc
        split
        · exact ih _ _ _ hrest
        · split
          · split
            · exact ih _ _ _ htail
            · split
              · exact ih _ _ _ htail
              · exact ih _ _ _ htail
          · rcases hdrop with hd | hd
            · exact ih _ _ _ hd
            · exact absurd hd hc

/-- The loop of `filepath.Clean` gives the same result with every iteration bound
from `len(rest)` upwards: the bound is never what ends it. -/
theorem cleanLoop_fuel (rooted : Bool) (rest rout : Str) (dotdot : Nat) :
    ∀ (extra : Nat), cleanLoop rooted (rest.length + extra) rest rout dotdot =
      cleanLoop rooted rest.length rest rout dotdot := by
  intro extra
  induction extra with
  | zero => rfl
  | succ extra ih =>
    rw [← ih]
    exact cleanLoop_fuel_succ rooted (rest.length + extra) rest rout dotdot
      (Nat.le_add_right _ _)

theorem getEsc_length (chunk : Str) (c : Char) (rest : Str) (h : getEsc chunk = some (c, rest)) :
    rest.length < chunk.length := by
  cases chunk with
  | nil => simp [getEsc] at h
  | cons x xs =>
    simp only [getEsc] at h
    split at h
    · cases h
    · split at h
      · cases xs with
        | nil => simp at h
        | cons r n =>
          simp only at h
          split at h
          · cases h
          · simp only [Option.some.injEq, Prod.mk.injEq] at h
            rw [← h.2]; simp only [List.length_cons]; omega
      · split at h
        · cases h
        · simp only [Option.some.injEq, Prod.mk.injEq] at h
          rw [← h.2]; simp

theorem classLoop_length (r : Char) : ∀ (fuel : Nat) (chunk : Str) (m : Bool) (n : Nat) (b : Bool)
    (rest : Str), classLoop r fuel chunk m n = some (b, rest) → rest.length < chunk.length := by
  intro fuel
  induction fuel with
  | zero => intro chunk m n b rest h; simp [classLoop] at h
  | succ fuel ih =>
    intro chunk m n b rest h
    simp only [classLoop] at h
    split at h
    · rename_i hc
      simp only [Option.some.injEq, Prod.mk.injEq] at h
      cases chunk with
      | nil => simp at hc
      | cons x xs => rw [← h.2]; simp
    · cases hg : getEsc chunk with
      | none => rw [hg] at h; cases h
      | some p =>
        obtain ⟨lo, chunk1⟩ := p
        rw [hg] at h
        simp only at h
        have h1 := getEsc_length _ _ _ hg
        split at h
        · cases hg2 : getEsc chunk1.tail with
          | none => rw [hg2] at h; cases h
          | some p2 =>
            obtain ⟨hi, chunk2⟩ := p2
            rw [hg2] at h
            simp only at h
            have h2 := getEsc_length _ _ _ hg2
            have h3 := ih _ _ _ _ _ h
            have h4 := List.length_tail chunk1
            omega
        · have h3 := ih _ _ _ _ _ h
          omega

theorem classLoop_fuel_succ (r : Char) : ∀ (fuel : Nat) (chunk : Str) (m : Bool) (n : Nat),
    chunk.length < fuel → classLoop r (fuel + 1) chunk m n = classLoop r fuel chunk m n := by
  intro fuel
  induction fuel with
  | zero => intro chunk m n h; omega
  | succ fuel ih =>
    intro chunk m n h
    rw [classLoop, classLoop]
    split
    · rfl
    · cases hg : getEsc chunk with
      | none => rfl
      | some p =>
        obtain ⟨lo, chunk1⟩ := p
        simp only
        have h1 := getEsc_length _ _ _ hg
        split
        · cases hg2 : getEsc chunk1.tail with
          | none => rfl
          | some p2 =>
            obtain ⟨hi, chunk2⟩ := p2
            simp only
            have h2 := getEsc_length _ _ _ hg2
            have h4 := List.length_tail chunk1
            exact ih _ _ _ (by omega)
        · exact ih _ _ _ (by omega)

theorem matchChunkLoop_fuel_succ : ∀ (fuel : Nat) (chunk s : Str) (failed : Bool),
    chunk.length ≤ fuel →
    matchChunkLoop (fuel + 1) chunk s failed = matchChunkLoop fuel chunk s failed := by
  intro fuel
  induction fuel with
  | zero =>
    intro chunk s failed h
    cases chunk with
    | nil => simp [matchChunkLoop]
    | cons c chunk => simp at h
  | succ fuel ih =>
    intro chunk s failed h
    cases chunk with
    | nil => simp [matchChunkLoop]
    | cons c chunk =>
      simp only [List.length_cons] at h
      have hch : chunk.length ≤ fuel := by omega
      simp only [matchChunkLoop]
      split
      · cases hcl : classLoop
            (if (failed || s.isEmpty) = true then Char.ofNat 0 else s.headD (Char.ofNat 0))
            ((if (chunk.head? == some '^') = true then chunk.tail else chunk).length + 1)
            (if (chunk.head? == some '^') = true then chunk.tail else chunk) false 0 with
        | none => rfl
        | some p =>
          obtain ⟨mtch, chunk2⟩ := p
          simp only
          have h1 := classLoop_length _ _ _ _ _ _ _ hcl
          have h2 : (if (chunk.head? == some '^') = true then chunk.tail else chunk).length
              ≤ chunk.length := by
            split
            · have := List.length_tail chunk; omega
            · exact Nat.le_refl _
          exact ih _ _ _ (by omega)
      · split
        · split
          · exact ih _ _ _ hch
          · exact ih _ _ _ hch
        · split
          · cases chunk with
            | nil => rfl
            | cons d chunk1 =>
              simp only [List.length_cons] at hch
              simp only
              split
              · exact ih _ _ _ (by omega)
              · exact ih _ _ _ (by omega)
          · split
            · exact ih _ _ _ hch
            · exact ih _ _ _ hch

/-- The loop of `matchChunk` gives the same result with every iteration bound from
`len(chunk)` upwards. -/
theorem matchChunkLoop_fuel (chunk s : Str) (failed : Bool) :
    ∀ (extra : Nat), matchChunkLoop (chunk.length + extra) chunk s failed =
      matchChunkLoop chunk.length chunk s failed := by
  intro extra
  induction extra with
  | zero => rfl
  | succ extra ih =>
    rw [← ih]
    exact matchChunkLoop_fuel_succ (chunk.length + extra) chunk s failed (Nat.le_add_right _ _)

/-- The loop over the ranges of a character class gives the same result with
every iteration bound above `len(chunk)`. -/
theorem classLoop_fuel (r : Char) (chunk : Str) (m : Bool) (n : Nat) :
    ∀ (extra : Nat), classLoop r (chunk.length + 1 + extra) chunk m n =
      classLoop r (chunk.length + 1) chunk m n := by
  intro extra
  induction extra with
  | zero => rfl
  | succ extra ih =>
    rw [← ih]
    exact classLoop_fuel_succ r (chunk.length + 1 + extra) chunk m n (by omega)

theorem scanChunkLoop_length : ∀ (n : Nat) (s : Str), s.length ≤ n → ∀ (b : Bool),
    (scanChunkLoop b s).2.length ≤ s.length := by
  intro n
  induction n with
  | zero =>
    intro s h b
    cases s with
    | nil => simp [scanChunkLoop]
    | cons c cs => simp at h
  | succ n ih =>
    intro s h b
    cases s with
    | nil => simp [scanChunkLoop]
    | cons c cs =>
      simp only [List.length_cons] at h
      have hcs : cs.length ≤ n := by omega
      unfold scanChunkLoop
      split
      · cases cs with
        | nil => simp
        | cons d ds =>
          simp only [List.length_cons] at hcs ⊢
          have := ih ds (by omega) b
          omega
      · split
        · have := ih cs hcs true; simp only [List.length_cons]; omega
        · split
          · have := ih cs hcs false; simp only [List.length_cons]; omega
          · split
            · split
              · have := ih cs hcs b; simp only [List.length_cons]; omega
              · simp
            · have := ih cs hcs b; simp only [List.length_cons]; omega

theorem scanChunkLoop_cons_length (c : Char) (cs : Str) (hc : (c == '*') = false) (b : Bool) :
    (scanChunkLoop b (c :: cs)).2.length ≤ cs.length := by
  have key := fun (s : Str) (b : Bool) => scanChunkLoop_length s.length s (Nat.le_refl _) b
  unfold scanChunkLoop
  simp only [hc]
  split
  · cases cs with
    | nil => simp
    | cons d ds =>
      simp only [List.length_cons]
      have := key ds b
      omega
  · split
    · exact key cs true
    · split
      · exact key cs false
      · simp only [Bool.false_eq_true, ↓reduceIte]
        exact key cs b

theorem scanChunk_length (pattern : Str) (h : pattern ≠ []) :
    (scanChunk pattern).2.2.length < pattern.length := by
  cases pattern with
  | nil => exact absurd rfl h
  | cons c cs =>
    simp only [scanChunk, List.length_cons]
    by_cases hc : (c == '*') = true
    · simp only [List.dropWhile_cons, hc, ↓reduceIte]
      have h1 := scanChunkLoop_length _ (cs.dropWhile (fun c => c == '*')) (Nat.le_refl _) false
      have h2 := length_dropWhile_le (fun c => c == '*') cs
      omega
    · have hc' : (c == '*') = false := by simpa using hc
      simp only [List.dropWhile_cons, hc', Bool.false_eq_true, ↓reduceIte]
      have := scanChunkLoop_cons_length c cs hc' false
      omega

theorem checkRest_fuel_succ : ∀ (fuel : Nat) (pattern : Str), pattern.length ≤ fuel →
    checkRest (fuel + 1) pattern = checkRest fuel pattern := by
  intro fuel
  induction fuel with
  | zero =>
    intro pattern h
    cases pattern with
    | nil => simp [checkRest]
    | cons c cs => simp at h
  | succ fuel ih =>
    intro pattern h
    by_cases hp : pattern = []
    · subst hp; simp [checkRest]
    · have hl := scanChunk_length pattern hp
      have hemp : pattern.isEmpty = false := by
        cases pattern with
        | nil => exact absurd rfl hp
        | cons c cs => rfl
      rw [checkRest, checkRest]
      simp only [hemp, Bool.false_eq_true, ↓reduceIte]
      split
      · rfl
      · exact ih _ (by omega)

theorem matchLoop_fuel_succ : ∀ (fuel : Nat) (pattern name : Str), pattern.length < fuel →
    matchLoop (fuel + 1) pattern name = matchLoop fuel pattern name := by
  intro fuel
  induction fuel with
  | zero => intro pattern name h; omega
  | succ fuel ih =>
    intro pattern name h
    by_cases hp : pattern = []
    · subst hp; simp [matchLoop]
    · have hl := scanChunk_length pattern hp
      have hemp : pattern.isEmpty = false := by
        cases pattern with
        | nil => exact absurd rfl hp
        | cons c cs => rfl
      have hrec : ∀ t, matchLoop (fuel + 1) (scanChunk pattern).2.2 t =
          matchLoop fuel (scanChunk pattern).2.2 t := fun t => ih _ t (by omega)
      rw [matchLoop, matchLoop]
      simp only [hemp, Bool.false_eq_true, ↓reduceIte, hrec]

/-- The `Pattern:` loop of `filepath.Match` gives the same result with every
iteration bound above `len(pattern)`. -/
theorem matchLoop_fuel (pattern name : Str) :
    ∀ (extra : Nat), matchLoop (pattern.length + 1 + extra) pattern name =
      matchLoop (pattern.length + 1) pattern name := by
  intro extra
  induction extra with
  | zero => rfl
  | succ extra ih =>
    rw [← ih]
    exact matchLoop_fuel_succ (pattern.length + 1 + extra) pattern name (by omega)

/-- The final loop of `filepath.Match` gives the same result with every iteration
bound from `len(pattern)` upwards. -/
theorem checkRest_fuel (pattern : Str) :
    ∀ (extra : Nat), checkRest (pattern.length + extra) pattern =
      checkRest pattern.length pattern := by
  intro extra
  induction extra with
  | zero => rfl
  | succ extra ih =>
    rw [← ih]
    exact checkRest_fuel_succ (pattern.length + extra) pattern (Nat.le_add_right _ _)

/-! ## The claims -/

theorem matchesAny_filter (base : Str) (ps : List Str) :
    matchesAny base (ps.filter (fun pat => (filepathMatch pat base).isSome)) =
      matchesAny base ps := by
  induction ps with
  | nil => rfl
  | cons p ps ih =>
    simp only [List.filter_cons]
    cases h : filepathMatch p base with
    | none => simp [matchesAny, h, ih]
    | some b => simp [matchesAny, h, ih]

theorem hitAt_dropBadPatterns (path : Str) (m : IgnorePatternsMap) (d : Str) :
    hitAt path (dropBadPatterns (filepathBase path) m) d = hitAt path m d := by
  unfold hitAt dropBadPatterns
  cases m d with
  | none => rfl
  | some ps => simp [matchesAny_filter]

theorem isIgnoredLoop_congr (path : Str) (m1 m2 : IgnorePatternsMap)
    (h : ∀ d, hitAt path m1 d = hitAt path m2 d) :
    ∀ (fuel : Nat) (d : Str), isIgnoredLoop path m1 fuel d = isIgnoredLoop path m2 fuel d := by
  intro fuel
  induction fuel with
  | zero => intro d; rfl
  | succ fuel ih =>
    intro d
    rw [isIgnoredLoop_succ, isIgnoredLoop_succ, h d, ih]

/-- Claim C1: `isIgnored(p, m)` returns true exactly when some directory `d` of
the ancestor chain `Dir(p), Dir(Dir(p)), ...` has a recorded pattern set in `m`
with a pattern that glob-matches `Base(p)` without pattern error, and returns
false exactly when there is no such directory. -/
theorem isIgnored_iff_ancestor_match (p : Str) (m : IgnorePatternsMap) :
    (isIgnored p m = some true ↔
      ∃ k ps pat, m (filepathDir^[k + 1] p) = some ps ∧ pat ∈ ps ∧
        filepathMatch pat (filepathBase p) = some true) ∧
    (isIgnored p m = some false ↔
      ¬ ∃ k ps pat, m (filepathDir^[k + 1] p) = some ps ∧ pat ∈ ps ∧
        filepathMatch pat (filepathBase p) = some true) := by
  have key : (∃ k, hitAt p m (filepathDir^[k + 1] p) = true) ↔
      ∃ k ps pat, m (filepathDir^[k + 1] p) = some ps ∧ pat ∈ ps ∧
        filepathMatch pat (filepathBase p) = some true := by
    constructor
    · rintro ⟨k, hk⟩
      obtain ⟨ps, h1, pat, h2, h3⟩ := (hitAt_iff p m _).mp hk
      exact ⟨k, ps, pat, h1, h2, h3⟩
    · rintro ⟨k, ps, pat, h1, h2, h3⟩
      exact ⟨k, (hitAt_iff p m _).mpr ⟨ps, h1, pat, h2, h3⟩⟩
  rw [isIgnored_true_iff_hit, isIgnored_false_iff_hit, key]
  exact ⟨Iff.rfl, Iff.rfl⟩

/-- Claim C6: a pattern for which glob matching against `Base(p)` reports a
pattern error counts as non-matching for that pattern only: `isIgnored(p, m)`
equals `isIgnored(p, m')` for the index `m'` without the erroring patterns; if
every pattern of every ancestor's set errors then `p` is not excluded; and a
matching pattern that follows an erroring one in the same set still excludes `p`. -/
theorem isIgnored_malformed_patterns (p : Str) (m : IgnorePatternsMap) :
    isIgnored p m = isIgnored p (dropBadPatterns (filepathBase p) m) ∧
    ((∀ k ps pat, m (filepathDir^[k + 1] p) = some ps → pat ∈ ps →
        filepathMatch pat (filepathBase p) = none) → isIgnored p m = some false) ∧
    (∀ k pre bad mid good post,
        m (filepathDir^[k + 1] p) = some (pre ++ bad :: (mid ++ good :: post)) →
        filepathMatch bad (filepathBase p) = none →
        filepathMatch good (filepathBase p) = some true → isIgnored p m = some true) := by
  refine ⟨?_, ?_, ?_⟩
  · exact isIgnoredLoop_congr p _ _ (fun d => (hitAt_dropBadPatterns p m d).symm) _ _
  · intro h
    rw [isIgnored_false_iff_hit]
    rintro ⟨k, hk⟩
    obtain ⟨ps, h1, pat, h2, h3⟩ := (hitAt_iff p m _).mp hk
    rw [h k ps pat h1 h2] at h3
    cases h3
  · intro k pre bad mid good post h1 _ h3
    rw [isIgnored_true_iff_hit]
    exact ⟨k, (hitAt_iff p m _).mpr ⟨_, h1, good, by simp, h3⟩⟩

theorem isIgnored_malformed_patterns_witness :
    filepathMatch "[".toList (filepathBase "/r/a.txt".toList) = none ∧
    filepathMatch "*.txt".toList (filepathBase "/r/a.txt".toList) = some true ∧
    isIgnored "/r/a.txt".toList malformedIndex = some true :=
  ⟨by decide, by decide,
    (isIgnored_malformed_patterns "/r/a.txt".toList malformedIndex).2.2 0 [] "[".toList []
      "*.txt".toList [] (by decide) (by decide) (by decide)⟩

/-- Claim C4: for every list of lines, `parseGitIgnore` returns exactly the
trimmed lines that are non-empty and do not start with `#`, in their original
order; every returned pattern is trimmed, non-empty and not a comment; and the
lines `*.log`, empty, `# comment`, `build` yield `*.log`, `build`. -/
theorem parseGitIgnore_patterns (ls : List Str) :
    parseGitIgnore (.lines ls) = .ok ((ls.map trimSpace).filter isPattern) ∧
    (∀ p ∈ (ls.map trimSpace).filter isPattern,
      p ≠ [] ∧ hasPrefix p ['#'] = false ∧ trimSpace p = p) ∧
    parseGitIgnore (.lines ["*.log".toList, "".toList, "# comment".toList, "build".toList]) =
      .ok ["*.log".toList, "build".toList] := by
  refine ⟨?_, parsed_patterns ls, ?_⟩
  · simp [parseGitIgnore, scanPatterns_eq]
  · exact congrArg Except.ok
      (by decide : scanPatterns [] ["*.log".toList, "".toList, "# comment".toList,
        "build".toList] = ["*.log".toList, "build".toList])

theorem visits_head (path : Str) (root : FsNode) :
    ∃ v rest, visits path root = v :: rest ∧ v.path = path := by
  cases root with
  | noStat e => exact ⟨⟨path, .noStat e, some e⟩, [], by simp only [visits], rfl⟩
  | file d => exact ⟨⟨path, .file d, none⟩, [], by simp only [visits], rfl⟩
  | dir le entries =>
    exact ⟨⟨path, .dir le entries, le⟩,
      (if le.isSome then [] else visitsNames path entries), by simp only [visits], rfl⟩

theorem filter_isPrinted_tail (path : Str) (m : IgnorePatternsMap) (vs : List Visit)
    (hhead : ∀ v rest, vs = v :: rest → v.path = path)
    (htail : ∀ v ∈ vs.tail, v.path ≠ path) :
    (before walkFails vs).filter (isPrinted path m) =
      (before walkFails vs).tail.filter (fun v => isIgnored v.path m == some false) := by
  cases vs with
  | nil => rfl
  | cons v rest =>
    have hv := hhead v rest rfl
    simp only [before, List.takeWhile_cons]
    split
    · have h0 : isPrinted path m v = false := by simp [isPrinted, hv]
      simp only [List.filter_cons, h0, Bool.false_eq_true, ↓reduceIte, List.tail_cons]
      apply List.filter_congr
      intro x hx
      have hx' : x ∈ rest := (List.takeWhile_sublist _).subset hx
      have := htail x hx'
      simp [isPrinted, this]
    · rfl

/-- Claim C2: for a root that resolves and is not itself excluded, `printTree`
prints the root's base name and then, in walk order, exactly one line for each
entry the pre-order walk visits whose path is not the root path and for which
`isIgnored` is false, and no other line. The list of visited entries does not
depend on the index, so an entry inside an excluded directory is printed whenever
its own check is false. Under an absolute clean root with ordinary names, the
entries whose path is not the root path are all the entries after the root. -/
theorem printTree_lines (path : Str) (root : FsNode) (m : IgnorePatternsMap)
    (hroot : ∀ e, root ≠ .noStat e) (hnot : isIgnored path m = some false) :
    printTree path root m =
      filepathBase path ::
        ((before walkFails (visits path root)).filter (isPrinted path m)).map
          (fun v => entryLine path v.path) ∧
    (∀ v ∈ before walkFails (visits path root),
      v.path ≠ path → isIgnored v.path m = some false →
        entryLine path v.path ∈ printTree path root m) ∧
    (∀ es, path = absPath es → (∀ x ∈ es, normalName x = true) → normalTree root = true →
      printTree path root m =
        filepathBase path ::
          ((before walkFails (visits path root)).tail.filter
            (fun v => isIgnored v.path m == some false)).map
            (fun v => entryLine path v.path)) := by
  have h := printTree_eq path root m hroot hnot
  refine ⟨h, ?_, ?_⟩
  · intro v hv h1 h2
    rw [h]
    apply List.mem_cons_of_mem
    apply List.mem_map_of_mem
    rw [List.mem_filter]
    refine ⟨hv, ?_⟩
    simp [isPrinted, h1, h2]
  · intro es hpath hes hn
    rw [h]
    obtain ⟨v0, rest, hvs, hv0⟩ := visits_head path root
    rw [filter_isPrinted_tail path m (visits path root)
      (fun v r hvr => by rw [hvs] at hvr; cases hvr; exact hv0)
      (by rw [hpath]; exact visits_tail_path_ne root es hes hn)]

theorem printTree_lines_witness :
    isIgnored "/r/build".toList (buildIgnorePatternsMap "/r".toList excludedDirTree).1
      = some true ∧
    printTree "/r".toList excludedDirTree (buildIgnorePatternsMap "/r".toList excludedDirTree).1
      = ["r".toList, "   ├──.gitignore".toList, "      ├──x.txt".toList] :=
  ⟨by decide,
    (printTree_lines "/r".toList excludedDirTree
      (buildIgnorePatternsMap "/r".toList excludedDirTree).1
      (by intro e h; cases h) (by decide)).2.2 ["r".toList] (by decide) (by decide)
      (by decide) |>.trans (by decide)⟩

/-- Claim C3, as stated, fails: under the root `/r` the direct child `a.txt` is
printed with one unit of indentation, not with none. -/
theorem printTree_child_not_flush :
    printTree "/r".toList oneFileTree (fun _ => none) = ["r".toList, "   ├──a.txt".toList] ∧
    "├──a.txt".toList ∉ printTree "/r".toList oneFileTree (fun _ => none) := by
  decide

/-- Claim C3, amended: for an absolute clean root path and a non-excluded entry
at depth `d` below it (its path is the root joined with `d` ordinary names), the
line the callback of `printTree` prints is three spaces repeated `d` times when
the root is not `/` (and `d - 1` times when the root is `/`), followed by `├──`
and the entry's base name. -/
theorem printWalkFn_line (es ns : List Str) (m : IgnorePatternsMap) (info : FsNode)
    (out : List Str) (hes : ∀ x ∈ es, normalName x = true)
    (hns : ∀ x ∈ ns, normalName x = true) (hne : ns ≠ [])
    (hnot : isIgnored (ns.foldl filepathJoin (absPath es)) m = some false) :
    printWalkFn (absPath es) m (ns.foldl filepathJoin (absPath es)) info none out =
      (out ++ [repeatStr "   ".toList (ns.length - (if es.isEmpty then 1 else 0)) ++
        "├──".toList ++ ns.getLast hne], none) := by
  rw [foldl_filepathJoin_absPath ns es hes hns] at hnot ⊢
  have hneq := absPath_append_ne es ns hns hne
  have hcond : (absPath (es ++ ns) != absPath es && some false == some false) = true := by
    simp [hneq]
  simp only [printWalkFn, hnot, hcond, ↓reduceIte, entryLine_absPath es ns hes hns hne]

theorem printWalkFn_line_witness :
    printWalkFn "/r".toList (fun _ => none) "/r/sub/c.txt".toList (.file (.lines [])) none
        ["r".toList] =
      (["r".toList, "      ├──c.txt".toList], none) :=
  printWalkFn_line ["r".toList] ["sub".toList, "c.txt".toList] (fun _ => none)
    (.file (.lines [])) ["r".toList] (by decide) (by decide) (by decide) (by decide)

/-- Claim C5: when `buildIgnorePatternsMap(root)` succeeds, the keys of the index
are exactly the paths of the directories reachable from the root (the root
included when it is a directory, no other entries); and when distinct directories
have distinct paths, every directory maps to its pattern set: the empty sequence
when it has no pattern file, the parsed lines of the pattern file otherwise. -/
theorem buildIgnorePatternsMap_index (rootPath : Str) (root : FsNode)
    (hok : (buildIgnorePatternsMap rootPath root).2 = none) :
    (∀ q, ((buildIgnorePatternsMap rootPath root).1 q).isSome = true ↔
      q ∈ dirPaths (visits rootPath root)) ∧
    (root.isDir = true → ((buildIgnorePatternsMap rootPath root).1 rootPath).isSome = true) ∧
    ((dirPaths (visits rootPath root)).Nodup →
      ∀ v ∈ visits rootPath root, ∀ le entries, v.info = .dir le entries →
        (buildIgnorePatternsMap rootPath root).1 v.path = some (patternSet entries) ∧
        (lookupEntry gitignore entries = none → patternSet entries = []) ∧
        (∀ ls, lookupEntry gitignore entries = some (.file (.lines ls)) →
          patternSet entries = scanPatterns [] ls)) := by
  rw [buildIgnorePatternsMap_eq] at hok
  simp only at hok
  have hall := findSome?_visitFailure_none _ hok
  have hbefore := before_eq_self buildFails _ hall
  have hkeys : ∀ q, ((buildIgnorePatternsMap rootPath root).1 q).isSome = true ↔
      q ∈ dirPaths (visits rootPath root) := by
    intro q
    rw [buildIgnorePatternsMap_eq]
    simp only [hbefore]
    rw [foldl_recordVisit_isSome, mem_dirPaths]
    simp
  refine ⟨hkeys, ?_, ?_⟩
  · intro hd
    rw [hkeys, mem_dirPaths]
    cases root with
    | noStat e => cases hd
    | file d => cases hd
    | dir le entries =>
      exact ⟨⟨rootPath, .dir le entries, le⟩, by simp [visits], rfl, rfl⟩
  · intro hnd v hv le entries hinfo
    refine ⟨?_, ?_, ?_⟩
    · rw [buildIgnorePatternsMap_eq]
      simp only [hbefore]
      rw [foldl_recordVisit_value _ _ hnd v hv (by rw [hinfo]; rfl)]
      simp [visitPatterns, hinfo]
    · intro hnone
      simp [patternSet, osOpen, hnone]
    · intro ls hls
      simp [patternSet, osOpen, hls]

theorem buildIgnorePatternsMap_index_witness :
    (buildIgnorePatternsMap "/r".toList scenarioTree).2 = none ∧
    (dirPaths (visits "/r".toList scenarioTree)).Nodup ∧
    ((buildIgnorePatternsMap "/r".toList scenarioTree).1 "/r/sub".toList).isSome = true :=
  ⟨by decide, by decide,
    ((buildIgnorePatternsMap_index "/r".toList scenarioTree (by decide)).1 "/r/sub".toList).mpr
      (by decide)⟩

/-- Claim C7: `buildIgnorePatternsMap(root)` returns no error exactly when no
visit of the pre-order walk meets a failure (statting or listing the entry fails,
or reading a visited directory's pattern file fails with an error other than
"file does not exist"); an error it returns is the failure of the first failing
visit in walk order, and the index then holds exactly the directories visited
before that visit; a missing pattern file is parsed as the empty pattern set
without error. -/
theorem buildIgnorePatternsMap_error (rootPath : Str) (root : FsNode) :
    ((buildIgnorePatternsMap rootPath root).2 = none ↔
      ∀ v ∈ visits rootPath root, visitFailure v = none) ∧
    (∀ e, (buildIgnorePatternsMap rootPath root).2 = some e →
      ∃ pre v post, visits rootPath root = pre ++ v :: post ∧
        (∀ u ∈ pre, visitFailure u = none) ∧ visitFailure v = some e ∧
        ∀ q, ((buildIgnorePatternsMap rootPath root).1 q).isSome = true ↔ q ∈ dirPaths pre) ∧
    (∀ entries, lookupEntry gitignore entries = none →
      readFailure (osOpen entries gitignore) = none ∧
      parseGitIgnore (osOpen entries gitignore) = .ok []) := by
  refine ⟨?_, ?_, ?_⟩
  · rw [buildIgnorePatternsMap_eq]
    simp only [List.findSome?_eq_none_iff]
  · intro e he
    rw [buildIgnorePatternsMap_eq] at he
    simp only at he
    obtain ⟨pre, v, post, h1, h2, h3⟩ := findSome?_split visitFailure _ e he
    refine ⟨pre, v, post, h1, h2, h3, ?_⟩
    intro q
    rw [buildIgnorePatternsMap_eq]
    simp only
    rw [h1, before_split buildFails pre v post (fun u hu => by simp [buildFails, h2 u hu])
      (by simp [buildFails, h3]), foldl_recordVisit_isSome, mem_dirPaths]
    simp
  · intro entries h
    simp [osOpen, h, readFailure, parseGitIgnore]

theorem buildIgnorePatternsMap_error_witness :
    (buildIgnorePatternsMap "/r".toList readErrorTree).2 =
      some (.other "open /r/a/.gitignore: permission denied".toList) ∧
    ((buildIgnorePatternsMap "/r".toList readErrorTree).1 "/r/b".toList).isSome = false ∧
    ∃ pre v post, visits "/r".toList readErrorTree = pre ++ v :: post ∧
      (∀ u ∈ pre, visitFailure u = none) ∧
      visitFailure v = some (.other "open /r/a/.gitignore: permission denied".toList) ∧
      ∀ q, ((buildIgnorePatternsMap "/r".toList readErrorTree).1 q).isSome = true ↔
        q ∈ dirPaths pre :=
  ⟨by decide, by decide,
    (buildIgnorePatternsMap_error "/r".toList readErrorTree).2.1 _ (by decide)⟩

/-- Claim C8, evaluated where it fails: when listing the directory `b` fails
during the walk of `printTree`, the walk stops and returns the error, no later
entry is printed, but the error is not printed: the output holds only the root
name and the line of `a`. -/
theorem printTree_walk_error_not_printed :
    (filepathWalk (printWalkFn "/r".toList (fun _ => none)) "/r".toList walkErrorTree
      ["r".toList]).2 = some (.other "open /r/b: permission denied".toList) ∧
    printTree "/r".toList walkErrorTree (fun _ => none) = ["r".toList, "   ├──a".toList] ∧
    (OsError.other "open /r/b: permission denied".toList).text ∉
      printTree "/r".toList walkErrorTree (fun _ => none) := by
  decide

/-- Claim C9, as stated, fails: on the scenario tree the output has a line for the
pattern file `.gitignore` of the root, and five lines rather than three. -/
theorem scenario_prints_gitignore :
    "   ├──.gitignore".toList ∈
      printTree "/r".toList scenarioTree (buildIgnorePatternsMap "/r".toList scenarioTree).1 ∧
    (printTree "/r".toList scenarioTree
      (buildIgnorePatternsMap "/r".toList scenarioTree).1).length = 5 := by
  decide

/-- Claim C9, amended: on the scenario tree found at `/r`, with the index built by
`buildIgnorePatternsMap`, `printTree` prints exactly the root's base name, then
the lines of `.gitignore`, `a.txt`, `sub` and `sub/.gitignore`; `b.log` and
`sub/c.log` are excluded by the root pattern `*.log`. -/
theorem scenario_output :
    printTree "/r".toList scenarioTree (buildIgnorePatternsMap "/r".toList scenarioTree).1 =
      ["r".toList, "   ├──.gitignore".toList, "   ├──a.txt".toList, "   ├──sub".toList,
        "      ├──.gitignore".toList] ∧
    isIgnored "/r/b.log".toList (buildIgnorePatternsMap "/r".toList scenarioTree).1
      = some true ∧
    isIgnored "/r/sub/c.log".toList (buildIgnorePatternsMap "/r".toList scenarioTree).1
      = some true := by
  decide

end DirTree
